import Mathlib

/-!
# Shark inventory: pack sets and order fulfilment

A shallow embedding of `src/service/inventory` (`pack.go`, `index.go`,
`shared.go`) and the properties of it that the specification states.

Conventions of the embedding:

* Go `uint` is a natural number below `2 ^ 64`, Go `int` an integer in
  `[-2 ^ 63, 2 ^ 63)`; conversions and arithmetic that can wrap are written
  with the wrap-around spelled out (`uintSub`, `toInt`, `wrapInt`).
* A Go map is the list of its entries (`mapGet`, `mapSet`, `mapDelete`);
  a slice is a list.
* A run-time panic (nil dereference, index out of range) is `none`.
-/

namespace Shark

/-! ## Machine integers -/

/-- Go `uint` subtraction: wraps modulo `2 ^ 64`. -/
def uintSub (a b : Nat) : Nat := (a + 2 ^ 64 - b % 2 ^ 64) % 2 ^ 64

/-- Go conversion `int(u)` of a `uint`: the two's-complement reading. -/
def toInt (u : Nat) : Int :=
  if u % 2 ^ 64 < 2 ^ 63 then ((u % 2 ^ 64 : Nat) : Int) else ((u % 2 ^ 64 : Nat) : Int) - 2 ^ 64

/-- Go `int` arithmetic result brought back into `[-2 ^ 63, 2 ^ 63)`. -/
def wrapInt (x : Int) : Int := (x + 2 ^ 63) % 2 ^ 64 - 2 ^ 63

/-! ## Go maps as entry lists -/

/-- Map read `m[k]` with the comma-ok result. -/
def mapGet {κ ν : Type} [DecidableEq κ] : List (κ × ν) → κ → Option ν
  | [], _ => none
  | e :: rest, k => if e.1 = k then some e.2 else mapGet rest k

/-- Map write `m[k] = v`: overwrite the entry of `k`, or add one. -/
def mapSet {κ ν : Type} [DecidableEq κ] : List (κ × ν) → κ → ν → List (κ × ν)
  | [], k, v => [(k, v)]
  | e :: rest, k, v => if e.1 = k then (k, v) :: rest else e :: mapSet rest k v

/-- Builtin `delete(m, k)`. -/
def mapDelete {κ ν : Type} [DecidableEq κ] (m : List (κ × ν)) (k : κ) : List (κ × ν) :=
  m.filter (fun e => decide (e.1 ≠ k))

/-! ## Data model (`pack.go`) -/

/-- Item of `pack.go`; `Id` is the 16-byte UUID read as a number. -/
structure Item where
  Id : Nat
  Name : String
  ForSale : Bool
  Price : Nat
deriving DecidableEq

/-- Pack of `pack.go`: a collection of similar items (`Type_` is the field
`Type`, a reserved word here). -/
structure Pack where
  Type_ : Item
  Size : Nat
deriving DecidableEq

/-- PackSet of `pack.go`: `keys` is `map[Pack]bool`, `values` the slice. -/
structure PackSet where
  keys : List (Pack × Bool)
  values : List Pack
deriving DecidableEq

/-- The errors of `shared.go`. -/
inductive Err where
  | ErrItemNotFound
  | ErrIndexedItemNotFound
  | ErrPackAlreadyExists
  | ErrPackNotFound
deriving DecidableEq

/-- Constant of `shared.go`. -/
def MAX_UNBOUNDED_ITERATION_COUNT : Nat := 800

/-- `NewPackSet`. -/
def NewPackSet : PackSet := { keys := [], values := [] }

/-- `PackSet.getPacks`. -/
def PackSet.getPacks (ps : PackSet) : List Pack := ps.values

/-- `PackSet.Add`: the set afterwards and the error returned (`none` is nil). -/
def PackSet.Add (ps : PackSet) (pack : Pack) : PackSet × Option Err :=
  if (mapGet ps.keys pack).getD false = true then
    (ps, some Err.ErrPackAlreadyExists)
  else
    ({ keys := mapSet ps.keys pack true, values := ps.values ++ [pack] }, none)

/-- `slices.Index`: position of the first occurrence (`none` is -1). -/
def slicesIndex : List Pack → Pack → Option Nat
  | [], _ => none
  | x :: rest, p => if x = p then some 0 else (slicesIndex rest p).map (· + 1)

/-- `slices.Delete(s, i, i+1)`. -/
def slicesDelete (s : List Pack) (i : Nat) : List Pack := s.eraseIdx i

/-- `PackSet.Remove`. -/
def PackSet.Remove (ps : PackSet) (pack : Pack) : PackSet × Option Err :=
  match slicesIndex ps.values pack with
  | some packIndex =>
    ({ keys := mapDelete ps.keys pack, values := slicesDelete ps.values packIndex }, none)
  | none => (ps, some Err.ErrPackNotFound)

/-- The comparator of `PackSet.Sort`: `int(a.Size - b.Size)`. -/
def sortCmp (a b : Pack) : Int := toInt (uintSub a.Size b.Size)

/-- Inner loop of the library's insertion sort, on the already processed
prefix held in reverse: the new element moves left while `cmp` of it and its
left neighbour is negative. -/
def insertLeft (cmp : Pack → Pack → Int) (x : Pack) : List Pack → List Pack
  | [] => [x]
  | y :: rest => if cmp x y < 0 then y :: insertLeft cmp x rest else x :: y :: rest

/-- `slices.SortStableFunc` of the Go standard library, as its insertion
sort: that is the whole algorithm on slices of at most 20 elements; longer
slices are insertion-sorted in blocks of 20 that are then merged stably,
which gives the same sequence whenever `cmp` is a consistent ordering and in
every case a rearrangement of the input. Where `cmp` is not a consistent
ordering (sizes `2 ^ 63` or more apart) the library's sequence on more than 20
elements can differ from this one. -/
def SortStableFunc (cmp : Pack → Pack → Int) (s : List Pack) : List Pack :=
  (s.foldl (fun acc x => insertLeft cmp x acc) []).reverse

/-- `PackSet.Sort`. -/
def PackSet.Sort (ps : PackSet) : PackSet :=
  { ps with values := SortStableFunc sortCmp ps.values }

/-! ## Inventory (`index.go`) -/

/-- `InventoryOrder`: `map[Pack]uint`. -/
abbrev InventoryOrder := List (Pack × Nat)

/-- `InventoryJSONFormat`: `map[string][]Pack`. -/
abbrev InventoryJSONFormat := List (String × List Pack)

/-- `ItemPackMap`: `map[string]PackSet`. -/
abbrev ItemPackMap := List (String × PackSet)

/-- Inventory of `index.go`, its data field (the mutex and the storage
handle carry no data of the model). -/
structure Inventory where
  data : ItemPackMap
deriving DecidableEq

/-- `Inventory.getPacksForItemByID`; `none` is `ErrItemNotFound`. -/
def Inventory.getPacksForItemByID (i : Inventory) (itemID : String) : Option PackSet :=
  mapGet i.data itemID

/-- `Inventory.serialize`. -/
def Inventory.serialize (i : Inventory) : InventoryJSONFormat :=
  i.data.foldl (fun result e => mapSet result e.1 e.2.getPacks) []

/-- Inner loop of `unserialize`: add every pack, ignoring the errors. -/
def addAll (packSet : PackSet) (packs : List Pack) : PackSet :=
  packs.foldl (fun ps pack => (ps.Add pack).1) packSet

/-- `Inventory.unserialize`: the map is cleared, then filled from the record. -/
def Inventory.unserialize (_i : Inventory) (jsonData : InventoryJSONFormat) : Inventory :=
  { data := jsonData.foldl (fun data e => mapSet data e.1 (addAll NewPackSet e.2).Sort) [] }

/-- `result[p]++` on a `map[Pack]uint`. -/
def incr (result : InventoryOrder) (p : Pack) : InventoryOrder :=
  mapSet result p (((mapGet result p).getD 0 + 1) % 2 ^ 64)

/-- The first loop of `ProcessOrder` (lines 194-209): the first pack whose
size is at least the count, else the pack at the last index. -/
def findPack (currentCount : Int) (length : Nat) :
    List Pack → Nat → Option Pack × Nat → Option Pack × Nat
  | [], _, cur => cur
  | pack :: rest, index, cur =>
    if toInt pack.Size ≥ currentCount then (some pack, index)
    else if index = length - 1 then
      findPack currentCount length rest (index + 1) (some pack, index)
    else findPack currentCount length rest (index + 1) cur

/-- The local variables of the fulfilment loop of `ProcessOrder`. -/
structure FulfilState where
  currentPack : Option Pack
  currentIndex : Nat
  currentCount : Int
  iterCount : Nat
  result : InventoryOrder
deriving DecidableEq

/-- Loop condition `currentCount > 0 && iterCount <= MAX_UNBOUNDED_ITERATION_COUNT`. -/
def fulfilCond (s : FulfilState) : Bool :=
  decide (s.currentCount > 0) && decide (s.iterCount ≤ MAX_UNBOUNDED_ITERATION_COUNT)

/-- One execution of the loop body (lines 215-245). -/
def fulfilBody (packsSlice : List Pack) (s : FulfilState) : Option FulfilState :=
  match s.currentPack with
  | none => none
  | some cp =>
    if s.currentCount ≥ toInt cp.Size then
      some { s with
        iterCount := s.iterCount + 1
        currentCount := wrapInt (s.currentCount - toInt cp.Size)
        result := incr s.result cp }
    else if s.currentIndex > 0 then
      match packsSlice[s.currentIndex - 1]? with
      | none => none
      | some p =>
        some { s with
          iterCount := s.iterCount + 1
          currentIndex := s.currentIndex - 1
          currentPack := some p }
    else
      some { s with
        iterCount := s.iterCount + 1
        currentCount := wrapInt (s.currentCount - toInt cp.Size)
        result := incr s.result cp }

/-- The fulfilment loop, run for at most `fuel` executions of its body. -/
def fulfilLoop (packsSlice : List Pack) : Nat → FulfilState → Option FulfilState
  | 0, s => some s
  | fuel + 1, s =>
    if fulfilCond s then
      match fulfilBody packsSlice s with
      | none => none
      | some t => fulfilLoop packsSlice fuel t
    else some s

/-- Lines 188-246 of `ProcessOrder`: the state in which the loop ends. The
fuel covers the 801 executions of the body that the condition can admit
(`iterCount` from 0 to 800) and the check that ends the loop; `fulfil_ends`
proves that it is enough. -/
def fulfil (packsSlice : List Pack) (count : Int) : Option FulfilState :=
  let start := findPack count packsSlice.length packsSlice 0 (none, 0)
  fulfilLoop packsSlice (MAX_UNBOUNDED_ITERATION_COUNT + 2)
    { currentPack := start.1, currentIndex := start.2, currentCount := count,
      iterCount := 0, result := [] }

/-- `Inventory.ProcessOrder`; `none` is a panic. -/
def Inventory.ProcessOrder (i : Inventory) (itemID : String) (count : Int) :
    Option InventoryOrder :=
  match i.getPacksForItemByID itemID with
  | none => some []
  | some packs => (fulfil packs.getPacks count).map (·.result)

/-- Number of packs an order holds in total. -/
def totalPacks (o : InventoryOrder) : Nat := (o.map (·.2)).sum

/-- Units an order delivers: the sum over its packs of size times count. -/
def delivered (o : InventoryOrder) : Nat := (o.map (fun e => e.1.Size * e.2)).sum

/-! ## Concrete inventories used below -/

/-- The item of the tests. -/
def item1 : Item := { Id := 1, Name := "Chelsea Boot", ForSale := true, Price := 30000 }

/-- Pack of `item1` of the given size. -/
def packOf (size : Nat) : Pack := { Type_ := item1, Size := size }

/-- Inventory with one item, `"item1"`, holding the given packs. -/
def invOf (sizes : List Nat) : Inventory :=
  { data := [("item1", { keys := sizes.map (fun s => (packOf s, true)), values := sizes.map packOf })] }

/-! ## Lock discipline (`index.go`, `server.go`)

The methods again, as one goroutine runs them, with `syncMutex` in the state
and a record of every access to the map `Inventory.data`, each with whether
this goroutine held the mutex at that point. -/

/-- An access to the map `Inventory.data`. -/
inductive Access where
  | read
  | write
deriving DecidableEq

/-- An inventory while one goroutine works on it: the data, whether the
goroutine holds `syncMutex`, and its accesses to the map so far, each with
the state of the mutex at the access. -/
structure InvRun where
  inv : Inventory
  held : Bool
  log : List (Access × Bool)
deriving DecidableEq

/-- `Inventory.lock`. -/
def InvRun.lock (r : InvRun) : InvRun := { r with held := true }

/-- `Inventory.unLock`. -/
def InvRun.unLock (r : InvRun) : InvRun := { r with held := false }

/-- Record an access to the map under the current state of the mutex. -/
def InvRun.access (r : InvRun) (a : Access) : InvRun :=
  { r with log := r.log ++ [(a, r.held)] }

/-- `Inventory.serialize` with its `lock()` and deferred `unLock()`. -/
def InvRun.serialize (r : InvRun) : InvRun × InventoryJSONFormat :=
  let r1 := r.lock
  let r2 := r1.access Access.read
  (r2.unLock, r2.inv.serialize)

/-- `Inventory.unserialize` with its `lock()` and deferred `unLock()`. -/
def InvRun.unserialize (r : InvRun) (jsonData : InventoryJSONFormat) : InvRun :=
  let r1 := r.lock
  let r2 := r1.access Access.write
  InvRun.unLock { r2 with inv := r2.inv.unserialize jsonData }

/-- `Inventory.getPacksForItemByID`: it ranges over the map and takes no
lock. -/
def InvRun.getPacksForItemByID (r : InvRun) (itemID : String) : InvRun × Option PackSet :=
  (r.access Access.read, r.inv.getPacksForItemByID itemID)

/-- The loop of the `PUT /:id` handler (lines 64-72 of `server.go`): add the
packs in turn, give up at the first error. -/
def addAllStrict (newPackSet : PackSet) : List Pack → Except Err PackSet
  | [] => Except.ok newPackSet
  | pack :: rest =>
    match (newPackSet.Add pack).2 with
    | some err => Except.error err
    | none => addAllStrict (newPackSet.Add pack).1 rest

/-- The `PUT /:id` handler of `startServer` (lines 52-83 of `server.go`) on a
parsed body: the run afterwards, the HTTP status and the response. The
`go i.persist()` it starts runs `serialize` in a goroutine of its own and
leaves no access in this one. -/
def InvRun.putHandler (r : InvRun) (id : String) (json : List Pack) :
    InvRun × Nat × Option InventoryJSONFormat :=
  match addAllStrict NewPackSet json with
  | Except.error _ => (r, 400, none)
  | Except.ok newPackSet =>
    let r1 := r.access Access.write
    let r2 : InvRun := { r1 with inv := { data := mapSet r1.inv.data id newPackSet.Sort } }
    let out := r2.serialize
    (out.1, 200, some out.2)

/-- Every recorded access was made with the mutex held. -/
def InvRun.allLocked (r : InvRun) : Bool := r.log.all (fun e => e.2)

/-! ## Largest-first make-up of an amount -/

/-- Number of packs that taking the largest pack that fits, repeatedly, uses
for an amount; the sizes are given largest first. -/
def greedyCount : List Nat → Nat → Nat
  | [], _ => 0
  | c :: rest, A => A / c + greedyCount rest (A % c)

/-- Sum of the two largest sizes of a list given largest first. -/
def twoLargest : List Nat → Nat
  | [] => 0
  | [c] => c
  | c :: c2 :: _ => c + c2

/-- The greedy check of a pack list (sizes largest first, `s0` the smallest):
for every amount that is a multiple of the smallest size, up to the sum of the
two largest sizes, and every size that fits in it, largest-first uses at most
one pack more for the amount than for the amount less that size. -/
def GreedyCheck (ds : List Nat) (s0 : Nat) : Prop :=
  ∀ a < twoLargest ds / s0 + 1, ∀ x ∈ ds, x ≤ a * s0 →
    greedyCount ds (a * s0) ≤ greedyCount ds (a * s0 - x) + 1

/-- The greedy check is a finite check. -/
instance decidableGreedyCheck (ds : List Nat) (s0 : Nat) : Decidable (GreedyCheck ds s0) := by
  unfold GreedyCheck
  infer_instance

/-- An amount rounded up to a multiple of `s0`. -/
def roundUp (s0 c : Nat) : Nat := (c + s0 - 1) / s0 * s0

/-- Number of packs the walk of `ProcessOrder` takes for what is left, from
the current size down (sizes largest first): as many of each size as fit,
and at the smallest size one more when something is still left. -/
def walkCount : List Nat → Nat → Nat
  | [], _ => 0
  | [s], c => (c + s - 1) / s
  | s :: s2 :: rest, c => c / s + walkCount (s2 :: rest) (c % s)

/-- Sizes of the packs up to index `j`, largest first. -/
def levels (packs : List Pack) (j : Nat) : List Nat :=
  ((packs.take (j + 1)).map (fun p => p.Size)).reverse

/-- Invariant of the loop: the packs taken plus the packs the walk still
takes for the remainder are the packs of the whole walk. -/
def CostInv (packs : List Pack) (W : Nat) (s : FulfilState) : Prop :=
  totalPacks s.result + walkCount (levels packs s.currentIndex) s.currentCount.toNat = W

/-! ## Invariants and reachability -/

/-- Invariant of the loop for every input: the current pack is the element
of the slice at the current index, and the order names packs of the slice. -/
def PackInv (packs : List Pack) (s : FulfilState) : Prop :=
  (∃ cp, s.currentPack = some cp ∧ packs[s.currentIndex]? = some cp) ∧
    ∀ e ∈ s.result, e.1 ∈ packs

/-- The hypotheses on a pack list under which the loop is analysed: every
size is at least `s0`, positive and a Go `int`, and the first pack has size
`s0`. -/
structure GoodPacks (packs : List Pack) (s0 : Nat) : Prop where
  pos : 0 < s0
  first : ∃ p0, packs[0]? = some p0 ∧ p0.Size = s0
  least : ∀ p ∈ packs, s0 ≤ p.Size
  small : ∀ p ∈ packs, p.Size < 2 ^ 63

/-- Invariant of the loop on good pack lists: what has been delivered plus
what remains is the count, the remainder never falls to minus the smallest
size, every pack taken delivered at least the smallest size, and `K` more
takes plus the steps down still possible stay below the iteration bound. -/
def SumInv (packs : List Pack) (s0 : Nat) (count : Int) (s : FulfilState) : Prop :=
  PackInv packs s ∧
    (delivered s.result : Int) + s.currentCount = count ∧
    -(s0 : Int) < s.currentCount ∧
    s.currentCount ≤ count ∧
    totalPacks s.result * s0 ≤ delivered s.result ∧
    totalPacks s.result ≤ s.iterCount ∧
    ∃ K : Nat, s.currentCount ≤ (K : Int) * (s0 : Int) ∧ s.iterCount + K + s.currentIndex ≤ 800

/-- Pack sets that can be built: from `NewPackSet()` by any calls of `Add`,
`Remove` and `Sort`, whether they succeed or fail. -/
inductive Reachable : PackSet → Prop
  | new : Reachable NewPackSet
  | add (ps : PackSet) (p : Pack) : Reachable ps → Reachable (ps.Add p).1
  | remove (ps : PackSet) (p : Pack) : Reachable ps → Reachable (ps.Remove p).1
  | sort (ps : PackSet) : Reachable ps → Reachable ps.Sort

/-- Invariant of pack sets: no pack twice in the sequence, and the key index
maps exactly the packs of the sequence, each to `true`. -/
def KeyInv (ps : PackSet) : Prop :=
  ps.values.Nodup ∧ ∀ p, mapGet ps.keys p = if p ∈ ps.values then some true else none

/-! ## Lemmas on maps -/

theorem mapGet_mapSet {κ ν : Type} [DecidableEq κ] (m : List (κ × ν)) (k k2 : κ) (v : ν) :
    mapGet (mapSet m k v) k2 = if k = k2 then some v else mapGet m k2 := by
  induction m with
  | nil => simp [mapSet, mapGet]
  | cons e rest ih =>
    by_cases h : e.1 = k
    · by_cases h2 : k = k2
      · simp [mapSet, mapGet, h, h2]
      · simp [mapSet, mapGet, h, h2]
    · by_cases h2 : k = k2
      · subst h2
        simp [mapSet, mapGet, h, ih]
      · simp [mapSet, mapGet, h, h2, ih]

theorem mapGet_mapDelete {κ ν : Type} [DecidableEq κ] (m : List (κ × ν)) (k k2 : κ) :
    mapGet (mapDelete m k) k2 = if k = k2 then none else mapGet m k2 := by
  induction m with
  | nil => simp [mapDelete, mapGet]
  | cons e rest ih =>
    unfold mapDelete at ih ⊢
    by_cases h : e.1 = k
    · by_cases h2 : k = k2
      · simpa [List.filter, mapGet, h, h2] using ih
      · simpa [List.filter, mapGet, h, h2] using ih
    · by_cases h2 : k = k2
      · subst h2
        simpa [List.filter, mapGet, h] using ih
      · simp only [if_neg h2, decide_not] at ih
        simp [List.filter, mapGet, h, h2, ih]

theorem mapSet_keys {κ ν : Type} [DecidableEq κ] (m : List (κ × ν)) (k : κ) (v : ν) (e : κ × ν)
    (he : e ∈ mapSet m k v) : e.1 = k ∨ e ∈ m := by
  induction m with
  | nil =>
    simp [mapSet] at he
    left; rw [he]
  | cons x rest ih =>
    by_cases h : x.1 = k
    · simp [mapSet, h] at he
      rcases he with he | he
      · left; rw [he]
      · right; exact List.mem_cons_of_mem _ he
    · simp [mapSet, h] at he
      rcases he with he | he
      · right; rw [he]; exact List.mem_cons_self _ _
      · rcases ih he with h1 | h1
        · left; exact h1
        · right; exact List.mem_cons_of_mem _ h1

theorem mapGet_mem {κ ν : Type} [DecidableEq κ] (m : List (κ × ν)) (k : κ) (v : ν)
    (h : mapGet m k = some v) : (k, v) ∈ m := by
  induction m with
  | nil => simp [mapGet] at h
  | cons x rest ih =>
    by_cases hx : x.1 = k
    · simp [mapGet, hx] at h
      have : x = (k, v) := by rw [← hx, ← h]
      rw [this]; exact List.mem_cons_self _ _
    · simp [mapGet, hx] at h
      exact List.mem_cons_of_mem _ (ih h)

/-! ## Lemmas on orders -/

theorem totalPacks_mapSet (r : InventoryOrder) (p : Pack) (v : Nat) :
    totalPacks (mapSet r p v) + (mapGet r p).getD 0 = totalPacks r + v := by
  induction r with
  | nil => simp [mapSet, mapGet, totalPacks]
  | cons e rest ih =>
    by_cases h : e.1 = p
    · simp [mapSet, mapGet, h, totalPacks]; omega
    · simp only [totalPacks] at ih
      simp [mapSet, mapGet, h, totalPacks]; omega

theorem delivered_mapSet (r : InventoryOrder) (p : Pack) (v : Nat) :
    delivered (mapSet r p v) + p.Size * (mapGet r p).getD 0 = delivered r + p.Size * v := by
  induction r with
  | nil => simp [mapSet, mapGet, delivered]
  | cons e rest ih =>
    by_cases h : e.1 = p
    · simp [mapSet, mapGet, h, delivered]; omega
    · simp only [delivered] at ih
      simp [mapSet, mapGet, h, delivered]; omega

theorem mapGet_le_totalPacks (r : InventoryOrder) (p : Pack) :
    (mapGet r p).getD 0 ≤ totalPacks r := by
  induction r with
  | nil => simp [mapGet]
  | cons e rest ih =>
    by_cases h : e.1 = p
    · simp [mapGet, h, totalPacks]
    · simp only [totalPacks] at ih
      simp [mapGet, h, totalPacks]; omega

theorem totalPacks_incr (r : InventoryOrder) (p : Pack) (h : totalPacks r + 1 < 2 ^ 64) :
    totalPacks (incr r p) = totalPacks r + 1 := by
  have h1 := mapGet_le_totalPacks r p
  have h2 : ((mapGet r p).getD 0 + 1) % 2 ^ 64 = (mapGet r p).getD 0 + 1 :=
    Nat.mod_eq_of_lt (by omega)
  have h3 := totalPacks_mapSet r p ((mapGet r p).getD 0 + 1)
  unfold incr
  rw [h2]
  omega

theorem delivered_incr (r : InventoryOrder) (p : Pack) (h : totalPacks r + 1 < 2 ^ 64) :
    delivered (incr r p) = delivered r + p.Size := by
  have h1 := mapGet_le_totalPacks r p
  have h2 : ((mapGet r p).getD 0 + 1) % 2 ^ 64 = (mapGet r p).getD 0 + 1 :=
    Nat.mod_eq_of_lt (by omega)
  have h3 := delivered_mapSet r p ((mapGet r p).getD 0 + 1)
  unfold incr
  rw [h2]
  rw [Nat.mul_add] at h3
  omega

theorem incr_keys (r : InventoryOrder) (p : Pack) (e : Pack × Nat) (he : e ∈ incr r p) :
    e.1 = p ∨ e ∈ r :=
  mapSet_keys r p _ e he

/-! ## Lemmas on the fulfilment loop -/

theorem fulfilCond_iff (s : FulfilState) :
    fulfilCond s = true ↔ 0 < s.currentCount ∧ s.iterCount ≤ 800 := by
  simp [fulfilCond, MAX_UNBOUNDED_ITERATION_COUNT]

/-- A property kept by every execution of the body holds when the loop ends,
and the loop ends without a panic. -/
theorem fulfilLoop_invariant (packs : List Pack) (P : FulfilState → Prop)
    (hstep : ∀ s, P s → fulfilCond s = true → ∃ t, fulfilBody packs s = some t ∧ P t) :
    ∀ (fuel : Nat) (s : FulfilState), P s → ∃ t, fulfilLoop packs fuel s = some t ∧ P t := by
  intro fuel
  induction fuel with
  | zero => intro s hs; exact ⟨s, rfl, hs⟩
  | succ n ih =>
    intro s hs
    by_cases hc : fulfilCond s = true
    · obtain ⟨t, ht, hPt⟩ := hstep s hs hc
      obtain ⟨u, hu, hPu⟩ := ih t hPt
      exact ⟨u, by simp [fulfilLoop, hc, ht, hu], hPu⟩
    · exact ⟨s, by simp [fulfilLoop, hc], hs⟩

theorem fulfilBody_iterCount (packs : List Pack) (s t : FulfilState)
    (h : fulfilBody packs s = some t) : t.iterCount = s.iterCount + 1 := by
  unfold fulfilBody at h
  split at h
  · simp at h
  · split at h
    · simp at h; rw [← h]
    · split at h
      · split at h
        · simp at h
        · simp at h; rw [← h]
      · simp at h; rw [← h]

/-- The fuel of `fulfil` is enough: the state returned fails the loop
condition, so the loop has really ended there. -/
theorem fulfilLoop_done (packs : List Pack) :
    ∀ (fuel : Nat) (s t : FulfilState), fulfilLoop packs fuel s = some t →
      802 ≤ s.iterCount + fuel → fulfilCond t = false := by
  intro fuel
  induction fuel with
  | zero =>
    intro s t h hf
    simp [fulfilLoop] at h
    subst h
    simp [fulfilCond, MAX_UNBOUNDED_ITERATION_COUNT]
    intro _; omega
  | succ n ih =>
    intro s t h hf
    by_cases hc : fulfilCond s = true
    · simp only [fulfilLoop, hc, if_true] at h
      cases hb : fulfilBody packs s with
      | none => simp [hb] at h
      | some u =>
        simp only [hb] at h
        have := fulfilBody_iterCount packs s u hb
        exact ih u t h (by omega)
    · simp [fulfilLoop, hc] at h
      subst h
      simpa using hc

theorem fulfilLoop_iterCount_le (packs : List Pack) :
    ∀ (fuel : Nat) (s t : FulfilState), fulfilLoop packs fuel s = some t →
      s.iterCount ≤ 801 → t.iterCount ≤ 801 := by
  intro fuel
  induction fuel with
  | zero =>
    intro s t h hs
    simp [fulfilLoop] at h
    subst h; exact hs
  | succ n ih =>
    intro s t h hs
    by_cases hc : fulfilCond s = true
    · simp only [fulfilLoop, hc, if_true] at h
      cases hb : fulfilBody packs s with
      | none => simp [hb] at h
      | some u =>
        simp only [hb] at h
        have h1 := fulfilBody_iterCount packs s u hb
        have h2 := ((fulfilCond_iff s).mp hc).2
        exact ih u t h (by omega)
    · simp [fulfilLoop, hc] at h
      subst h; exact hs

/-- Whenever `fulfil` returns, the loop has ended (its condition fails in the
state returned) after at most 801 executions of the body. -/
theorem fulfil_ends (packs : List Pack) (count : Int) (t : FulfilState)
    (h : fulfil packs count = some t) : fulfilCond t = false ∧ t.iterCount ≤ 801 := by
  unfold fulfil at h
  exact ⟨fulfilLoop_done packs _ _ t h (by simp [MAX_UNBOUNDED_ITERATION_COUNT]),
    fulfilLoop_iterCount_le packs _ _ t h (by simp)⟩

theorem fulfilLoop_preserves (packs : List Pack) (P : FulfilState → Prop)
    (hstep : ∀ s t, P s → fulfilCond s = true → fulfilBody packs s = some t → P t) :
    ∀ (fuel : Nat) (s t : FulfilState), fulfilLoop packs fuel s = some t → P s → P t := by
  intro fuel
  induction fuel with
  | zero =>
    intro s t h hs
    simp [fulfilLoop] at h
    subst h; exact hs
  | succ n ih =>
    intro s t h hs
    by_cases hc : fulfilCond s = true
    · simp only [fulfilLoop, hc, if_true] at h
      cases hb : fulfilBody packs s with
      | none => simp [hb] at h
      | some u =>
        simp only [hb] at h
        exact ih u t h (hstep s u hs hc hb)
    · simp [fulfilLoop, hc] at h
      subst h; exact hs

theorem totalPacks_incr_le (r : InventoryOrder) (p : Pack) :
    totalPacks (incr r p) ≤ totalPacks r + 1 := by
  have h1 := totalPacks_mapSet r p (((mapGet r p).getD 0 + 1) % 2 ^ 64)
  have h2 : ((mapGet r p).getD 0 + 1) % 2 ^ 64 ≤ (mapGet r p).getD 0 + 1 := Nat.mod_le _ _
  unfold incr
  omega

theorem fulfilBody_totalPacks (packs : List Pack) (s t : FulfilState)
    (hs : totalPacks s.result ≤ s.iterCount) (h : fulfilBody packs s = some t) :
    totalPacks t.result ≤ t.iterCount := by
  unfold fulfilBody at h
  split at h
  · simp at h
  · rename_i cp _
    have := totalPacks_incr_le s.result cp
    split at h
    · simp at h; rw [← h]; simp only; omega
    · split at h
      · split at h
        · simp at h
        · simp at h; rw [← h]; simp only; omega
      · simp at h; rw [← h]; simp only; omega

/-- For every slice and count: the order `fulfil` returns holds at most as
many packs as the body was executed, which is at most 801 times. -/
theorem fulfil_totalPacks_le (packs : List Pack) (count : Int) (t : FulfilState)
    (h : fulfil packs count = some t) :
    totalPacks t.result ≤ t.iterCount ∧ t.iterCount ≤ 801 := by
  refine ⟨?_, (fulfil_ends packs count t h).2⟩
  unfold fulfil at h
  exact fulfilLoop_preserves packs (fun s => totalPacks s.result ≤ s.iterCount)
    (fun s u hs _ hb => fulfilBody_totalPacks packs s u hs hb) _ _ t h (by simp [totalPacks])

/-- On a non-empty slice the first loop always selects a pack, the one at
the index it reports. -/
theorem findPack_spec (c : Int) (len : Nat) :
    ∀ (l : List Pack) (idx : Nat) (cur : Option Pack × Nat), l ≠ [] → idx + l.length = len →
      ∃ p j, findPack c len l idx cur = (some p, j) ∧ idx ≤ j ∧ l[j - idx]? = some p := by
  intro l
  induction l with
  | nil => intro idx cur h; exact absurd rfl h
  | cons x rest ih =>
    intro idx cur _ hlen
    by_cases h1 : toInt x.Size ≥ c
    · exact ⟨x, idx, by simp [findPack, h1], le_refl _, by simp⟩
    · by_cases h2 : idx = len - 1
      · have hr : rest = [] := by
          apply List.eq_nil_of_length_eq_zero
          simp at hlen; omega
        subst hr
        exact ⟨x, idx, by simp [findPack, h1, h2], le_refl _, by simp⟩
      · have hr : rest ≠ [] := by
          intro h; subst h; simp at hlen; omega
        obtain ⟨p, j, hf, hj, hp⟩ := ih (idx + 1) cur hr (by simp at hlen; omega)
        refine ⟨p, j, by simp [findPack, h1, h2, hf], by omega, ?_⟩
        have : j - idx = (j - (idx + 1)) + 1 := by omega
        rw [this, List.getElem?_cons_succ]
        exact hp

theorem fulfilBody_PackInv (packs : List Pack) (s : FulfilState) (hs : PackInv packs s) :
    ∃ t, fulfilBody packs s = some t ∧ PackInv packs t := by
  obtain ⟨⟨cp, hcp, hidx⟩, hres⟩ := hs
  have hmem : cp ∈ packs := List.getElem?_mem hidx
  have hkeys : ∀ e ∈ incr s.result cp, e.1 ∈ packs := by
    intro e he
    rcases incr_keys _ _ _ he with h | h
    · rw [h]; exact hmem
    · exact hres e h
  by_cases h1 : s.currentCount ≥ toInt cp.Size
  · refine ⟨{ s with
        iterCount := s.iterCount + 1
        currentCount := wrapInt (s.currentCount - toInt cp.Size)
        result := incr s.result cp }, ?_, ⟨cp, hcp, hidx⟩, hkeys⟩
    simp only [fulfilBody, hcp, h1, if_true]
  · by_cases h2 : s.currentIndex > 0
    · obtain ⟨hlt, _⟩ := List.getElem?_eq_some.mp hidx
      have hlt2 : s.currentIndex - 1 < packs.length := by omega
      have hget : packs[s.currentIndex - 1]? = some (packs[s.currentIndex - 1]) :=
        List.getElem?_eq_getElem hlt2
      refine ⟨{ s with
          iterCount := s.iterCount + 1
          currentIndex := s.currentIndex - 1
          currentPack := some (packs[s.currentIndex - 1]) }, ?_, ⟨_, rfl, hget⟩, hres⟩
      simp only [fulfilBody, hcp, h1, h2, if_true, if_false, hget]
    · refine ⟨{ s with
          iterCount := s.iterCount + 1
          currentCount := wrapInt (s.currentCount - toInt cp.Size)
          result := incr s.result cp }, ?_, ⟨cp, hcp, hidx⟩, hkeys⟩
      simp only [fulfilBody, hcp, h1, h2, if_false]

/-- The state in which `fulfil` starts the loop satisfies `PackInv`. -/
theorem fulfil_start (packs : List Pack) (count : Int) (hne : packs ≠ []) :
    ∃ p j, findPack count packs.length packs 0 (none, 0) = (some p, j) ∧ packs[j]? = some p := by
  obtain ⟨p, j, hf, _, hp⟩ := findPack_spec count packs.length packs 0 (none, 0) hne (by simp)
  exact ⟨p, j, hf, by simpa using hp⟩

theorem toInt_of_lt (u : Nat) (h : u < 2 ^ 63) : toInt u = (u : Int) := by
  have h1 : u % 2 ^ 64 = u := Nat.mod_eq_of_lt (by omega)
  unfold toInt
  rw [h1, if_pos h]

theorem wrapInt_of_range (x : Int) (h1 : -(2 ^ 63) ≤ x) (h2 : x < 2 ^ 63) : wrapInt x = x := by
  unfold wrapInt
  rw [Int.emod_eq_of_lt (by omega) (by omega)]
  omega

theorem fulfilBody_SumInv (packs : List Pack) (s0 : Nat) (count : Int)
    (hg : GoodPacks packs s0) (hint : count < 2 ^ 63)
    (s : FulfilState) (hs : SumInv packs s0 count s) (hc : fulfilCond s = true) :
    ∃ t, fulfilBody packs s = some t ∧ SumInv packs s0 count t := by
  obtain ⟨hP, hsum, hlow, hup, htot, hiter, K, hK, hKb⟩ := hs
  obtain ⟨hcpos, hit⟩ := (fulfilCond_iff s).mp hc
  obtain ⟨t, ht, hPt⟩ := fulfilBody_PackInv packs s hP
  refine ⟨t, ht, hPt, ?_⟩
  obtain ⟨⟨cp, hcp, hidx⟩, hres⟩ := hP
  have hmem : cp ∈ packs := List.getElem?_mem hidx
  have hsz := hg.small cp hmem
  have hle := hg.least cp hmem
  have hpos := hg.pos
  have hti : toInt cp.Size = (cp.Size : Int) := toInt_of_lt _ hsz
  have hnw : totalPacks s.result + 1 < 2 ^ 64 := by omega
  have hK1 : 1 ≤ K := by
    rcases Nat.eq_zero_or_pos K with h | h
    · subst h; simp at hK; omega
    · exact h
  have hKmul : ((K - 1 : Nat) : Int) * (s0 : Int) = (K : Int) * (s0 : Int) - (s0 : Int) := by
    have : ((K - 1 : Nat) : Int) = (K : Int) - 1 := by omega
    rw [this]; ring
  -- what a take does to the state
  have htake : ∀ u : FulfilState,
      u = { currentPack := some cp
            currentIndex := s.currentIndex
            currentCount := wrapInt (s.currentCount - toInt cp.Size)
            iterCount := s.iterCount + 1
            result := incr s.result cp } →
      -(s0 : Int) < s.currentCount - (cp.Size : Int) →
      ((delivered u.result : Int) + u.currentCount = count ∧
        -(s0 : Int) < u.currentCount ∧
        u.currentCount ≤ count ∧
        totalPacks u.result * s0 ≤ delivered u.result ∧
        totalPacks u.result ≤ u.iterCount ∧
        ∃ K2 : Nat, u.currentCount ≤ (K2 : Int) * (s0 : Int) ∧
          u.iterCount + K2 + u.currentIndex ≤ 800) := by
    intro u hu hov
    have hw : wrapInt (s.currentCount - toInt cp.Size) = s.currentCount - (cp.Size : Int) := by
      rw [hti]; apply wrapInt_of_range <;> omega
    have hd := delivered_incr s.result cp hnw
    have htp := totalPacks_incr s.result cp hnw
    subst hu
    simp only [hw, hd, htp]
    refine ⟨by push_cast; omega, hov, by omega, ?_, by omega, K - 1, ?_, by omega⟩
    · rw [Nat.add_mul]; omega
    · rw [hKmul]
      have : (s0 : Int) ≤ (cp.Size : Int) := by exact_mod_cast hle
      omega
  unfold fulfilBody at ht
  simp only [hcp] at ht
  by_cases h1 : s.currentCount ≥ toInt cp.Size
  · simp only [h1, if_true, Option.some.injEq] at ht
    exact htake t ht.symm (by rw [hti] at h1; omega)
  · simp only [h1, if_false] at ht
    by_cases h2 : s.currentIndex > 0
    · simp only [h2, if_true] at ht
      cases hget : packs[s.currentIndex - 1]? with
      | none => simp [hget] at ht
      | some q =>
        simp only [hget, Option.some.injEq] at ht
        subst ht
        exact ⟨hsum, hlow, hup, htot, by simp only; omega, K, hK, by simp only; omega⟩
    · simp only [h2, if_false, Option.some.injEq] at ht
      have hz : s.currentIndex = 0 := by omega
      obtain ⟨p0, hp0, hp0s⟩ := hg.first
      rw [hz, hp0] at hidx
      have hcp0 : cp.Size = s0 := by
        have : p0 = cp := by simpa using hidx
        rw [← this]; exact hp0s
      exact htake t ht.symm (by rw [hcp0]; omega)

theorem le_ceil_mul (count : Int) (s0 : Nat) (h0 : 0 < s0) :
    count ≤ ((count + (s0 : Int) - 1) / (s0 : Int)) * (s0 : Int) := by
  have hs : (0 : Int) < (s0 : Int) := by exact_mod_cast h0
  have h1 := Int.emod_add_ediv (count + (s0 : Int) - 1) (s0 : Int)
  have h2 := Int.emod_lt_of_pos (count + (s0 : Int) - 1) hs
  have h3 : ((count + (s0 : Int) - 1) / (s0 : Int)) * (s0 : Int)
      = (s0 : Int) * ((count + (s0 : Int) - 1) / (s0 : Int)) := Int.mul_comm _ _
  rw [h3]
  omega

/-- On a good pack list, with the iteration bound out of reach, the loop ends
with a non-positive remainder above minus the smallest size. -/
theorem fulfil_good (packs : List Pack) (s0 : Nat) (count : Int)
    (hg : GoodPacks packs s0) (hpos : 0 < count) (hint : count < 2 ^ 63)
    (hbound : (count + (s0 : Int) - 1) / (s0 : Int) + (packs.length : Int) ≤ 801) :
    ∃ t, fulfil packs count = some t ∧
      (delivered t.result : Int) + t.currentCount = count ∧
      -(s0 : Int) < t.currentCount ∧ t.currentCount ≤ 0 ∧
      totalPacks t.result * s0 ≤ delivered t.result := by
  have hne : packs ≠ [] := by
    obtain ⟨p0, hp0, _⟩ := hg.first
    intro h; subst h; simp at hp0
  obtain ⟨p, j, hf, hj⟩ := fulfil_start packs count hne
  obtain ⟨hjlt, _⟩ := List.getElem?_eq_some.mp hj
  have hs0 : (0 : Int) < (s0 : Int) := by exact_mod_cast hg.pos
  have hceil := le_ceil_mul count s0 hg.pos
  have hKnn : 0 ≤ (count + (s0 : Int) - 1) / (s0 : Int) :=
    Int.ediv_nonneg (by omega) (by omega)
  have hstart : SumInv packs s0 count
      { currentPack := some p, currentIndex := j, currentCount := count,
        iterCount := 0, result := [] } := by
    refine ⟨⟨⟨p, rfl, hj⟩, by simp⟩, by simp [delivered], by simp only; omega, le_refl _,
      by simp [totalPacks, delivered], by simp [totalPacks],
      ((count + (s0 : Int) - 1) / (s0 : Int)).toNat, ?_, ?_⟩
    · rw [Int.toNat_of_nonneg hKnn]; exact hceil
    · simp only
      have := Int.toNat_of_nonneg hKnn
      omega
  obtain ⟨t, ht, hPt⟩ := fulfilLoop_invariant packs (SumInv packs s0 count)
    (fun s hs hc => fulfilBody_SumInv packs s0 count hg hint s hs hc)
    (MAX_UNBOUNDED_ITERATION_COUNT + 2) _ hstart
  have hdone := fulfilLoop_done packs _ _ t ht (by simp [MAX_UNBOUNDED_ITERATION_COUNT])
  obtain ⟨_, hsum, hlow, _, htot, _, K, _, hKb⟩ := hPt
  refine ⟨t, ?_, hsum, hlow, ?_, htot⟩
  · simp only [fulfil, hf]; exact ht
  · by_contra hcon
    have : fulfilCond t = true := (fulfilCond_iff t).mpr ⟨by omega, by omega⟩
    rw [this] at hdone
    exact absurd hdone (by simp)

theorem goodPacks_of_sorted (p0 : Pack) (rest : List Pack)
    (hsorted : (p0 :: rest).Pairwise (fun a b => a.Size ≤ b.Size))
    (hsize : ∀ p ∈ p0 :: rest, 0 < p.Size ∧ p.Size < 2 ^ 63) :
    GoodPacks (p0 :: rest) p0.Size where
  pos := (hsize p0 (List.mem_cons_self _ _)).1
  first := ⟨p0, by simp, rfl⟩
  least := by
    intro p hp
    rcases List.mem_cons.mp hp with h | h
    · rw [h]
    · exact (List.pairwise_cons.mp hsorted).1 p h
  small := fun p hp => (hsize p hp).2

/-! ## Lemmas on pack sets -/

theorem insertLeft_perm (cmp : Pack → Pack → Int) (x : Pack) (acc : List Pack) :
    (insertLeft cmp x acc).Perm (x :: acc) := by
  induction acc with
  | nil => simp [insertLeft]
  | cons y rest ih =>
    by_cases h : cmp x y < 0
    · simp only [insertLeft, h, if_true]
      exact (List.Perm.cons y ih).trans (List.Perm.swap x y rest)
    · simp only [insertLeft, h, if_false]
      exact List.Perm.refl _

theorem foldl_insertLeft_perm (cmp : Pack → Pack → Int) (l : List Pack) :
    ∀ acc : List Pack, (l.foldl (fun acc x => insertLeft cmp x acc) acc).Perm (l ++ acc) := by
  induction l with
  | nil => intro acc; simp
  | cons x rest ih =>
    intro acc
    simp only [List.foldl_cons]
    refine (ih (insertLeft cmp x acc)).trans ?_
    refine (List.Perm.append_left rest (insertLeft_perm cmp x acc)).trans ?_
    exact @List.perm_middle _ x rest acc

/-- The sort only rearranges the slice, whatever the comparator answers. -/
theorem SortStableFunc_perm (cmp : Pack → Pack → Int) (l : List Pack) :
    (SortStableFunc cmp l).Perm l := by
  unfold SortStableFunc
  refine (List.reverse_perm _).trans ?_
  simpa using foldl_insertLeft_perm cmp l []

/-- On sizes below 2 ^ 63 the comparator is negative exactly when the first
pack is the smaller one. -/
theorem sortCmp_neg_iff (a b : Pack) (ha : a.Size < 2 ^ 63) (hb : b.Size < 2 ^ 63) :
    sortCmp a b < 0 ↔ a.Size < b.Size := by
  unfold sortCmp uintSub toInt
  have hb2 : b.Size % 2 ^ 64 = b.Size := Nat.mod_eq_of_lt (by omega)
  rw [hb2]
  by_cases h : a.Size < b.Size
  · have h1 : (a.Size + 2 ^ 64 - b.Size) % 2 ^ 64 = a.Size + 2 ^ 64 - b.Size :=
      Nat.mod_eq_of_lt (by omega)
    rw [h1, Nat.mod_eq_of_lt (by omega)]
    have h2 : ¬ (a.Size + 2 ^ 64 - b.Size < 2 ^ 63) := by omega
    rw [if_neg h2]
    constructor
    · intro _; exact h
    · intro _; omega
  · have h1 : (a.Size + 2 ^ 64 - b.Size) % 2 ^ 64 = a.Size - b.Size := by
      have : a.Size + 2 ^ 64 - b.Size = (a.Size - b.Size) + 2 ^ 64 := by omega
      rw [this, Nat.add_mod_right]
      exact Nat.mod_eq_of_lt (by omega)
    rw [h1, Nat.mod_eq_of_lt (by omega)]
    have h2 : a.Size - b.Size < 2 ^ 63 := by omega
    rw [if_pos h2]
    constructor
    · intro h3; omega
    · intro h3; exact absurd h3 h

theorem insertLeft_sorted (x : Pack) (acc : List Pack)
    (hx : x.Size < 2 ^ 63) (hacc : ∀ y ∈ acc, y.Size < 2 ^ 63)
    (hs : acc.Pairwise (fun a b => b.Size ≤ a.Size)) :
    (insertLeft sortCmp x acc).Pairwise (fun a b => b.Size ≤ a.Size) := by
  induction acc with
  | nil => simp [insertLeft]
  | cons y rest ih =>
    have hy := hacc y (List.mem_cons_self _ _)
    obtain ⟨hyr, hrest⟩ := List.pairwise_cons.mp hs
    by_cases h : sortCmp x y < 0
    · have hlt := (sortCmp_neg_iff x y hx hy).mp h
      simp only [insertLeft, h, if_true]
      refine List.pairwise_cons.mpr ⟨?_, ih (fun z hz => hacc z (List.mem_cons_of_mem _ hz)) hrest⟩
      intro z hz
      rcases List.mem_cons.mp ((insertLeft_perm sortCmp x rest).mem_iff.mp hz) with h1 | h1
      · rw [h1]; omega
      · exact hyr z h1
    · have hge : ¬ x.Size < y.Size := fun h2 => h ((sortCmp_neg_iff x y hx hy).mpr h2)
      simp only [insertLeft, h, if_false]
      refine List.pairwise_cons.mpr ⟨?_, hs⟩
      intro z hz
      rcases List.mem_cons.mp hz with h1 | h1
      · rw [h1]; omega
      · have := hyr z h1
        omega

theorem foldl_insertLeft_sorted (l : List Pack) (hl : ∀ y ∈ l, y.Size < 2 ^ 63) :
    ∀ acc : List Pack, (∀ y ∈ acc, y.Size < 2 ^ 63) →
      acc.Pairwise (fun a b => b.Size ≤ a.Size) →
      (l.foldl (fun acc x => insertLeft sortCmp x acc) acc).Pairwise
        (fun a b => b.Size ≤ a.Size) := by
  induction l with
  | nil => intro acc _ hs; simpa using hs
  | cons x rest ih =>
    intro acc hacc hs
    simp only [List.foldl_cons]
    have hx := hl x (List.mem_cons_self _ _)
    refine ih (fun y hy => hl y (List.mem_cons_of_mem _ hy)) _ ?_
      (insertLeft_sorted x acc hx hacc hs)
    intro y hy
    rcases List.mem_cons.mp ((insertLeft_perm sortCmp x acc).mem_iff.mp hy) with h1 | h1
    · rw [h1]; exact hx
    · exact hacc y h1

theorem insertLeft_filter (x : Pack) (k : Nat) (acc : List Pack)
    (hx : x.Size < 2 ^ 63) (hacc : ∀ y ∈ acc, y.Size < 2 ^ 63) :
    (insertLeft sortCmp x acc).filter (fun p => decide (p.Size = k))
      = (x :: acc).filter (fun p => decide (p.Size = k)) := by
  induction acc with
  | nil => simp [insertLeft]
  | cons y rest ih =>
    have hy := hacc y (List.mem_cons_self _ _)
    have ih2 := ih (fun z hz => hacc z (List.mem_cons_of_mem _ hz))
    by_cases h : sortCmp x y < 0
    · have hlt := (sortCmp_neg_iff x y hx hy).mp h
      simp only [insertLeft, h, if_true]
      by_cases hyk : y.Size = k
      · have hxk : ¬ x.Size = k := by omega
        simp only [List.filter_cons, hyk, hxk, decide_True, decide_False, if_true] at ih2 ⊢
        simpa using ih2
      · by_cases hxk : x.Size = k
        · simp only [List.filter_cons, hyk, hxk, decide_True, decide_False, if_true] at ih2 ⊢
          simpa using ih2
        · simp only [List.filter_cons, hyk, hxk, decide_True, decide_False] at ih2 ⊢
          simpa using ih2
    · simp only [insertLeft, h, if_false]

theorem foldl_insertLeft_filter (k : Nat) (l : List Pack) (hl : ∀ y ∈ l, y.Size < 2 ^ 63) :
    ∀ acc : List Pack, (∀ y ∈ acc, y.Size < 2 ^ 63) →
      (l.foldl (fun acc x => insertLeft sortCmp x acc) acc).filter (fun p => decide (p.Size = k))
        = (l.reverse ++ acc).filter (fun p => decide (p.Size = k)) := by
  induction l with
  | nil => intro acc _; simp
  | cons x rest ih =>
    intro acc hacc
    simp only [List.foldl_cons]
    have hx := hl x (List.mem_cons_self _ _)
    have hacc2 : ∀ y ∈ insertLeft sortCmp x acc, y.Size < 2 ^ 63 := by
      intro y hy
      rcases List.mem_cons.mp ((insertLeft_perm sortCmp x acc).mem_iff.mp hy) with h1 | h1
      · rw [h1]; exact hx
      · exact hacc y h1
    rw [ih (fun y hy => hl y (List.mem_cons_of_mem _ hy)) _ hacc2]
    simp only [List.filter_append, List.reverse_cons, List.append_assoc, List.singleton_append]
    rw [insertLeft_filter x k acc hx hacc]

theorem foldl_insertLeft_of_sorted (l : List Pack) (hl : ∀ y ∈ l, y.Size < 2 ^ 63)
    (hs : l.Pairwise (fun a b => a.Size ≤ b.Size)) :
    ∀ acc : List Pack, (∀ y ∈ acc, y.Size < 2 ^ 63) →
      (∀ y ∈ acc, ∀ z ∈ l, y.Size ≤ z.Size) →
      l.foldl (fun acc x => insertLeft sortCmp x acc) acc = l.reverse ++ acc := by
  induction l with
  | nil => intro acc _ _; simp
  | cons x rest ih =>
    intro acc hacc hle
    obtain ⟨hxr, hrest⟩ := List.pairwise_cons.mp hs
    have hx := hl x (List.mem_cons_self _ _)
    have hins : insertLeft sortCmp x acc = x :: acc := by
      cases acc with
      | nil => rfl
      | cons y ys =>
        have hy := hacc y (List.mem_cons_self _ _)
        have hyx := hle y (List.mem_cons_self _ _) x (List.mem_cons_self _ _)
        have : ¬ sortCmp x y < 0 := by
          intro h
          have := (sortCmp_neg_iff x y hx hy).mp h
          omega
        simp only [insertLeft, this, if_false]
    simp only [List.foldl_cons, hins]
    rw [ih (fun y hy => hl y (List.mem_cons_of_mem _ hy)) hrest (x :: acc)]
    · simp
    · intro y hy
      rcases List.mem_cons.mp hy with h1 | h1
      · rw [h1]; exact hx
      · exact hacc y h1
    · intro y hy z hz
      rcases List.mem_cons.mp hy with h1 | h1
      · rw [h1]; exact hxr z hz
      · exact hle y h1 z (List.mem_cons_of_mem _ hz)

/-- On sizes below 2 ^ 63 `PackSet.Sort` is the stable ascending sort: the
sequence is rearranged, non-decreasing in size, the packs of each size keep
their order, and a sequence already ascending is left as it is. -/
theorem Sort_stable_of_small (ps : PackSet) (hsmall : ∀ p ∈ ps.values, p.Size < 2 ^ 63) :
    ps.Sort.values.Perm ps.values ∧
      ps.Sort.values.Pairwise (fun a b => a.Size ≤ b.Size) ∧
      (∀ k : Nat, ps.Sort.values.filter (fun p => decide (p.Size = k))
        = ps.values.filter (fun p => decide (p.Size = k))) ∧
      (ps.values.Pairwise (fun a b => a.Size ≤ b.Size) → ps.Sort.values = ps.values) := by
  refine ⟨SortStableFunc_perm sortCmp ps.values, ?_, ?_, ?_⟩
  · show (SortStableFunc sortCmp ps.values).Pairwise _
    unfold SortStableFunc
    rw [List.pairwise_reverse]
    exact foldl_insertLeft_sorted ps.values hsmall [] (by simp) List.Pairwise.nil
  · intro k
    show (SortStableFunc sortCmp ps.values).filter _ = _
    unfold SortStableFunc
    rw [List.filter_reverse, foldl_insertLeft_filter k ps.values hsmall [] (by simp)]
    simp [List.filter_reverse]
  · intro hs
    show SortStableFunc sortCmp ps.values = ps.values
    unfold SortStableFunc
    rw [foldl_insertLeft_of_sorted ps.values hsmall hs [] (by simp) (by simp)]
    simp

theorem slicesIndex_none (l : List Pack) (p : Pack) (h : slicesIndex l p = none) : p ∉ l := by
  induction l with
  | nil => simp
  | cons x rest ih =>
    by_cases hx : x = p
    · simp [slicesIndex, hx] at h
    · simp only [slicesIndex, hx, if_false, Option.map_eq_none'] at h
      simp only [List.mem_cons, not_or]
      exact ⟨fun h2 => hx h2.symm, ih h⟩

theorem slicesDelete_index (l : List Pack) (p : Pack) (k : Nat)
    (h : slicesIndex l p = some k) : slicesDelete l k = l.erase p := by
  induction l generalizing k with
  | nil => simp [slicesIndex] at h
  | cons x rest ih =>
    by_cases hx : x = p
    · simp only [slicesIndex, hx, if_true, Option.some.injEq] at h
      subst h; subst hx
      simp [slicesDelete]
    · simp only [slicesIndex, hx, if_false, Option.map_eq_some'] at h
      obtain ⟨j, hj, hk⟩ := h
      subst hk
      have := ih j hj
      unfold slicesDelete at this ⊢
      rw [List.eraseIdx_cons_succ, this, List.erase_cons_tail]
      simpa using hx

theorem KeyInv_new : KeyInv NewPackSet := by
  refine ⟨List.nodup_nil, ?_⟩
  intro p; simp [NewPackSet, mapGet]

theorem KeyInv_Add (ps : PackSet) (p : Pack) (h : KeyInv ps) : KeyInv (ps.Add p).1 := by
  obtain ⟨hnd, hk⟩ := h
  by_cases hex : (mapGet ps.keys p).getD false = true
  · simp only [PackSet.Add, hex, if_true]
    exact ⟨hnd, hk⟩
  · have hnot : p ∉ ps.values := by
      intro hin
      apply hex
      rw [hk p, if_pos hin]; rfl
    unfold PackSet.Add
    rw [if_neg hex]
    refine ⟨?_, ?_⟩
    · refine List.Nodup.append hnd (List.nodup_singleton p) ?_
      intro q hq hq2
      simp only [List.mem_singleton] at hq2
      subst hq2
      exact hnot hq
    · intro q
      show mapGet (mapSet ps.keys p true) q
        = if q ∈ ps.values ++ [p] then some true else none
      simp only [mapGet_mapSet, List.mem_append, List.mem_singleton]
      by_cases hpq : p = q
      · subst hpq; simp
      · have hqp : ¬ q = p := fun h => hpq h.symm
        simp only [hpq, if_false, hqp, or_false]
        exact hk q

theorem KeyInv_Remove (ps : PackSet) (p : Pack) (h : KeyInv ps) : KeyInv (ps.Remove p).1 := by
  obtain ⟨hnd, hk⟩ := h
  cases hidx : slicesIndex ps.values p with
  | none =>
    simp only [PackSet.Remove, hidx]
    exact ⟨hnd, hk⟩
  | some k =>
    simp only [PackSet.Remove, hidx, slicesDelete_index ps.values p k hidx]
    refine ⟨hnd.erase p, ?_⟩
    intro q
    simp only [mapGet_mapDelete, hnd.mem_erase_iff]
    by_cases hpq : p = q
    · subst hpq; simp
    · have hqp : q ≠ p := fun h => hpq h.symm
      simp only [hpq, if_false, hqp, ne_eq, not_false_eq_true, true_and]
      exact hk q

theorem KeyInv_Sort (ps : PackSet) (h : KeyInv ps) : KeyInv ps.Sort := by
  obtain ⟨hnd, hk⟩ := h
  have hperm := SortStableFunc_perm sortCmp ps.values
  refine ⟨hperm.nodup_iff.mpr hnd, ?_⟩
  intro q
  simp only [PackSet.Sort, hperm.mem_iff]
  exact hk q

theorem Reachable_KeyInv (ps : PackSet) (h : Reachable ps) : KeyInv ps := by
  induction h with
  | new => exact KeyInv_new
  | add ps p _ ih => exact KeyInv_Add ps p ih
  | remove ps p _ ih => exact KeyInv_Remove ps p ih
  | sort ps _ ih => exact KeyInv_Sort ps ih

/-! ## Lemmas on `serialize` and `unserialize` -/

theorem mapSet_of_not_mem {κ ν : Type} [DecidableEq κ] (m : List (κ × ν)) (k : κ) (v : ν)
    (h : k ∉ m.map Prod.fst) : mapSet m k v = m ++ [(k, v)] := by
  induction m with
  | nil => rfl
  | cons e rest ih =>
    simp only [List.map_cons, List.mem_cons, not_or] at h
    have h1 : ¬ e.1 = k := fun h2 => h.1 h2.symm
    simp [mapSet, h1, ih h.2]

/-- Filling a map from a list of entries with distinct new keys lays the
entries down in order. -/
theorem foldl_mapSet_eq {α β : Type} (f : α → β) (l : List (String × α)) :
    ∀ acc : List (String × β), (l.map Prod.fst).Nodup →
      (∀ k ∈ l.map Prod.fst, k ∉ acc.map Prod.fst) →
      l.foldl (fun m e => mapSet m e.1 (f e.2)) acc = acc ++ l.map (fun e => (e.1, f e.2)) := by
  induction l with
  | nil => intro acc _ _; simp
  | cons e rest ih =>
    intro acc hnd hdis
    simp only [List.map_cons, List.nodup_cons] at hnd
    have hk : e.1 ∉ acc.map Prod.fst := hdis e.1 (by simp)
    simp only [List.foldl_cons, mapSet_of_not_mem acc e.1 (f e.2) hk]
    rw [ih (acc ++ [(e.1, f e.2)]) hnd.2]
    · simp
    · intro k hkr
      simp only [List.map_append, List.map_cons, List.map_nil, List.mem_append,
        List.mem_singleton, not_or]
      refine ⟨hdis k (by simp only [List.map_cons, List.mem_cons]; right; exact hkr), ?_⟩
      intro h2
      rw [h2] at hkr
      exact hnd.1 hkr

theorem mapGet_map {α β : Type} (f : α → β) (l : List (String × α)) (k : String) :
    mapGet (l.map (fun e => (e.1, f e.2))) k = (mapGet l k).map f := by
  induction l with
  | nil => rfl
  | cons e rest ih =>
    by_cases h : e.1 = k
    · simp [mapGet, h]
    · simp [mapGet, h, ih]

theorem serialize_eq (i : Inventory) (hids : (i.data.map Prod.fst).Nodup) :
    i.serialize = i.data.map (fun e => (e.1, e.2.getPacks)) := by
  unfold Inventory.serialize
  rw [foldl_mapSet_eq PackSet.getPacks i.data [] hids (by simp)]
  simp

theorem unserialize_eq (i : Inventory) (jsonData : InventoryJSONFormat)
    (hids : (jsonData.map Prod.fst).Nodup) :
    (i.unserialize jsonData).data
      = jsonData.map (fun e => (e.1, (addAll NewPackSet e.2).Sort)) := by
  unfold Inventory.unserialize
  simp only
  rw [foldl_mapSet_eq (fun packs => (addAll NewPackSet packs).Sort) jsonData [] hids (by simp)]
  simp

theorem Add_values_mem (ps : PackSet) (x p : Pack) (h : KeyInv ps) :
    p ∈ (ps.Add x).1.values ↔ p ∈ ps.values ∨ p = x := by
  by_cases hex : (mapGet ps.keys x).getD false = true
  · have hx : x ∈ ps.values := by
      by_contra hn
      rw [h.2 x, if_neg hn] at hex
      simp at hex
    simp only [PackSet.Add, hex, if_true]
    constructor
    · intro h1; left; exact h1
    · intro h1
      rcases h1 with h1 | h1
      · exact h1
      · rw [h1]; exact hx
  · unfold PackSet.Add
    rw [if_neg hex]
    show p ∈ ps.values ++ [x] ↔ _
    simp

theorem addAll_KeyInv (packs : List Pack) :
    ∀ ps : PackSet, KeyInv ps → KeyInv (addAll ps packs) := by
  induction packs with
  | nil => intro ps h; exact h
  | cons x rest ih =>
    intro ps h
    exact ih (ps.Add x).1 (KeyInv_Add ps x h)

theorem addAll_mem (packs : List Pack) (p : Pack) :
    ∀ ps : PackSet, KeyInv ps →
      (p ∈ (addAll ps packs).values ↔ p ∈ ps.values ∨ p ∈ packs) := by
  induction packs with
  | nil => intro ps _; simp [addAll]
  | cons x rest ih =>
    intro ps h
    have h1 := ih (ps.Add x).1 (KeyInv_Add ps x h)
    have h2 := Add_values_mem ps x p h
    show p ∈ (addAll (ps.Add x).1 rest).values ↔ _
    rw [h1, h2, List.mem_cons]
    tauto

theorem addAll_of_nodup (packs : List Pack) :
    ∀ ps : PackSet, KeyInv ps → packs.Nodup → (∀ p ∈ packs, p ∉ ps.values) →
      (addAll ps packs).values = ps.values ++ packs := by
  induction packs with
  | nil => intro ps _ _ _; simp [addAll]
  | cons x rest ih =>
    intro ps h hnd hdis
    obtain ⟨hx, hrest⟩ := List.nodup_cons.mp hnd
    have hxps : x ∉ ps.values := hdis x (List.mem_cons_self _ _)
    have hex : ¬ (mapGet ps.keys x).getD false = true := by
      rw [h.2 x, if_neg hxps]; simp
    have hadd : (ps.Add x).1.values = ps.values ++ [x] := by
      unfold PackSet.Add
      rw [if_neg hex]
    show (addAll (ps.Add x).1 rest).values = _
    rw [ih (ps.Add x).1 (KeyInv_Add ps x h) hrest, hadd]
    · simp
    · intro p hp
      rw [hadd]
      simp only [List.mem_append, List.mem_singleton, not_or]
      refine ⟨hdis p (List.mem_cons_of_mem _ hp), ?_⟩
      intro h2
      rw [h2] at hp
      exact hx hp

/-- What `unserialize` does for every record with distinct item IDs: the map
has exactly the record's IDs, and each item's sequence holds every distinct
pack of its list exactly once; it is ascending when the sizes are below
2 ^ 63. -/
theorem unserialize_loads (i : Inventory) (jsonData : InventoryJSONFormat)
    (hids : (jsonData.map Prod.fst).Nodup) (id : String) :
    (mapGet jsonData id = none → (i.unserialize jsonData).getPacksForItemByID id = none) ∧
      ∀ packs, mapGet jsonData id = some packs →
        ∃ ps, (i.unserialize jsonData).getPacksForItemByID id = some ps ∧
          ps.values.Nodup ∧ (∀ p, p ∈ ps.values ↔ p ∈ packs) ∧
          ((∀ p ∈ packs, p.Size < 2 ^ 63) →
            ps.values.Pairwise (fun a b => a.Size ≤ b.Size)) := by
  have hget : (i.unserialize jsonData).getPacksForItemByID id
      = (mapGet jsonData id).map (fun packs => (addAll NewPackSet packs).Sort) := by
    unfold Inventory.getPacksForItemByID
    rw [unserialize_eq i jsonData hids]
    exact mapGet_map (fun packs => (addAll NewPackSet packs).Sort) jsonData id
  refine ⟨fun h => by rw [hget, h]; rfl, ?_⟩
  intro packs hp
  have hinv := addAll_KeyInv packs NewPackSet KeyInv_new
  have hmem : ∀ p, p ∈ (addAll NewPackSet packs).Sort.values ↔ p ∈ packs := by
    intro p
    show p ∈ SortStableFunc sortCmp (addAll NewPackSet packs).values ↔ _
    rw [(SortStableFunc_perm sortCmp (addAll NewPackSet packs).values).mem_iff,
      addAll_mem packs p NewPackSet KeyInv_new]
    simp [NewPackSet]
  refine ⟨(addAll NewPackSet packs).Sort, by rw [hget, hp]; rfl,
    (KeyInv_Sort _ hinv).1, hmem, ?_⟩
  intro hsmall
  refine (Sort_stable_of_small (addAll NewPackSet packs) ?_).2.1
  intro p hp2
  apply hsmall p
  have := (addAll_mem packs p NewPackSet KeyInv_new).mp hp2
  simpa [NewPackSet] using this

/-- What the round trip through `serialize` and `unserialize` does for every
inventory with distinct item IDs, duplicate-free pack sets and sizes below
2 ^ 63: the same IDs, and for each item the stable ascending sort of its
packs, which is the original sequence when that was ascending. -/
theorem roundtrip_of_small (i : Inventory) (hids : (i.data.map Prod.fst).Nodup)
    (hdup : ∀ e ∈ i.data, e.2.values.Nodup)
    (hsmall : ∀ e ∈ i.data, ∀ p ∈ e.2.values, p.Size < 2 ^ 63) (id : String) :
    (i.getPacksForItemByID id = none →
        (i.unserialize i.serialize).getPacksForItemByID id = none) ∧
      ∀ ps, i.getPacksForItemByID id = some ps →
        ∃ ps2, (i.unserialize i.serialize).getPacksForItemByID id = some ps2 ∧
          ps2.values.Perm ps.values ∧
          ps2.values.Pairwise (fun a b => a.Size ≤ b.Size) ∧
          (ps.values.Pairwise (fun a b => a.Size ≤ b.Size) → ps2.values = ps.values) := by
  have hser := serialize_eq i hids
  have hids2 : (i.serialize.map Prod.fst).Nodup := by
    rw [hser]; simpa [List.map_map, Function.comp_def] using hids
  have hget : (i.unserialize i.serialize).getPacksForItemByID id
      = (i.getPacksForItemByID id).map
          (fun ps => (addAll NewPackSet ps.getPacks).Sort) := by
    unfold Inventory.getPacksForItemByID
    rw [unserialize_eq i i.serialize hids2,
      mapGet_map (fun packs => (addAll NewPackSet packs).Sort) i.serialize id, hser,
      mapGet_map PackSet.getPacks i.data id]
    cases mapGet i.data id <;> rfl
  refine ⟨fun h => by rw [hget, h]; rfl, ?_⟩
  intro ps hps
  have hin : (id, ps) ∈ i.data := mapGet_mem _ _ _ hps
  have hvals : (addAll NewPackSet ps.getPacks).values = ps.values := by
    rw [addAll_of_nodup ps.getPacks NewPackSet KeyInv_new (hdup _ hin) (by simp [NewPackSet])]
    simp [NewPackSet, PackSet.getPacks]
  have hst := Sort_stable_of_small (addAll NewPackSet ps.getPacks)
    (by rw [hvals]; exact hsmall _ hin)
  rw [hvals] at hst
  exact ⟨(addAll NewPackSet ps.getPacks).Sort, by rw [hget, hps]; rfl, hst.1, hst.2.1, hst.2.2.2⟩

/-! ## Lemmas on the largest-first make-up and the walk -/

theorem greedyCount_sub_head (c : Nat) (rest : List Nat) (A : Nat) (hc : 0 < c) (h : c ≤ A) :
    greedyCount (c :: rest) A = greedyCount (c :: rest) (A - c) + 1 := by
  have h1 : A / c = (A - c) / c + 1 := by
    have := Nat.sub_add_cancel h
    conv_lhs => rw [← this]
    exact Nat.add_div_right _ hc
  have h2 : A % c = (A - c) % c := by
    have := Nat.sub_add_cancel h
    conv_lhs => rw [← this]
    exact Nat.add_mod_right _ _
  simp only [greedyCount, h1, h2]
  omega

theorem greedyCount_zero (ds : List Nat) : greedyCount ds 0 = 0 := by
  induction ds with
  | nil => rfl
  | cons c rest ih => simp [greedyCount, ih]

theorem lt_div_succ_mul (B s0 : Nat) (hs0 : 0 < s0) : B < (B / s0 + 1) * s0 := by
  have h1 := Nat.div_add_mod B s0
  have h2 := Nat.mod_lt B hs0
  have h3 : (B / s0 + 1) * s0 = s0 * (B / s0) + s0 := by ring
  omega

/-- The greedy check extends from the amounts below the sum of the two
largest sizes to every amount: for every multiple of the smallest size and
every size that fits, largest-first uses at most one pack more for the amount
than for the amount less that size. -/
theorem greedyCount_step (ds : List Nat) (s0 : Nat) (hs0 : 0 < s0)
    (hdesc : ds.Pairwise (fun a b => b ≤ a)) (hmul : ∀ x ∈ ds, s0 ∣ x)
    (hpos : ∀ x ∈ ds, 0 < x) (hcheck : GreedyCheck ds s0) :
    ∀ a, ∀ x ∈ ds, x ≤ a * s0 →
      greedyCount ds (a * s0) ≤ greedyCount ds (a * s0 - x) + 1 := by
  intro a
  induction a using Nat.strong_induction_on with
  | _ a ih =>
    by_cases ha : a < twoLargest ds / s0 + 1
    · exact hcheck a ha
    · intro x hx hxA
      have hbig : twoLargest ds < a * s0 := by
        have h1 := lt_div_succ_mul (twoLargest ds) s0 hs0
        have h2 : (twoLargest ds / s0 + 1) * s0 ≤ a * s0 :=
          Nat.mul_le_mul_right s0 (by omega)
        omega
      cases ds with
      | nil => simp at hx
      | cons c rest =>
        have hc := hpos c (List.mem_cons_self _ _)
        rcases List.mem_cons.mp hx with hxc | hxr
        · subst hxc
          rw [greedyCount_sub_head x rest (a * s0) hc hxA]
        · cases rest with
          | nil => simp at hxr
          | cons c2 rest2 =>
            have htwo : twoLargest (c :: c2 :: rest2) = c + c2 := rfl
            rw [htwo] at hbig
            have hx2 : x ≤ c2 := by
              rcases List.mem_cons.mp hxr with h | h
              · rw [h]
              · have := (List.pairwise_cons.mp (List.pairwise_cons.mp hdesc).2).1 x h
                exact this
            obtain ⟨k, hk⟩ := hmul c (List.mem_cons_self _ _)
            have hk1 : 1 ≤ k := by
              rcases Nat.eq_zero_or_pos k with h | h
              · subst h; simp at hk; omega
              · exact h
            have hka : k ≤ a := by
              by_contra hcon
              have : a * s0 < k * s0 := Nat.mul_lt_mul_of_pos_right (by omega) hs0
              rw [Nat.mul_comm k s0, ← hk] at this
              omega
            have hsub : (a - k) * s0 = a * s0 - c := by
              rw [Nat.sub_mul, hk, Nat.mul_comm s0 k]
            have h1 := ih (a - k) (by omega) x hx (by rw [hsub]; omega)
            rw [hsub] at h1
            have h2 := greedyCount_sub_head c (c2 :: rest2) (a * s0) hc (by omega)
            have h3 := greedyCount_sub_head c (c2 :: rest2) (a * s0 - x) hc (by omega)
            have h4 : a * s0 - c - x = a * s0 - x - c := Nat.sub_right_comm _ _ _
            rw [h4] at h1
            omega

/-- On a pack list that passes the greedy check, largest-first uses the least
number of packs for every amount the packs make up: no list of sizes of the
item adds up to an amount with fewer packs. -/
theorem greedyCount_least (ds : List Nat) (s0 : Nat) (hs0 : 0 < s0)
    (hdesc : ds.Pairwise (fun a b => b ≤ a)) (hmul : ∀ x ∈ ds, s0 ∣ x)
    (hpos : ∀ x ∈ ds, 0 < x) (hcheck : GreedyCheck ds s0) :
    ∀ m : List Nat, (∀ x ∈ m, x ∈ ds) → greedyCount ds m.sum ≤ m.length := by
  intro m
  induction m with
  | nil => intro _; simp [greedyCount_zero]
  | cons x rest ih =>
    intro hm
    have hrest := ih (fun y hy => hm y (List.mem_cons_of_mem _ hy))
    have hx := hm x (List.mem_cons_self _ _)
    have hdvd : s0 ∣ (x :: rest).sum := by
      apply List.dvd_sum
      intro y hy
      exact hmul y (hm y hy)
    obtain ⟨a, ha⟩ := hdvd
    have hstep := greedyCount_step ds s0 hs0 hdesc hmul hpos hcheck a x hx
      (by rw [Nat.mul_comm, ← ha]; simp)
    rw [Nat.mul_comm a s0, ← ha] at hstep
    have : (x :: rest).sum - x = rest.sum := by simp
    rw [this] at hstep
    simp only [List.length_cons]
    omega

theorem delivered_dvd (s0 : Nat) (o : InventoryOrder) (h : ∀ e ∈ o, s0 ∣ e.1.Size) :
    s0 ∣ delivered o := by
  unfold delivered
  apply List.dvd_sum
  intro y hy
  obtain ⟨e, he, hey⟩ := List.mem_map.mp hy
  rw [← hey]
  exact Dvd.dvd.mul_right (h e he) _

theorem walkCount_zero (ds : List Nat) (hpos : ∀ x ∈ ds, 0 < x) : walkCount ds 0 = 0 := by
  induction ds with
  | nil => rfl
  | cons s rest ih =>
    have hs := hpos s (List.mem_cons_self _ _)
    cases rest with
    | nil =>
      simp only [walkCount]
      exact Nat.div_eq_of_lt (by omega)
    | cons s2 rest2 =>
      have := ih (fun x hx => hpos x (List.mem_cons_of_mem _ hx))
      simp only [walkCount, Nat.zero_div, Nat.zero_mod, this]

theorem walkCount_take (s : Nat) (lower : List Nat) (c : Nat) (hs : 0 < s) (h : s ≤ c) :
    walkCount (s :: lower) c = walkCount (s :: lower) (c - s) + 1 := by
  cases lower with
  | nil =>
    simp only [walkCount]
    have : c + s - 1 = (c - s + s - 1) + s := by omega
    rw [this, Nat.add_div_right _ hs]
  | cons s2 rest =>
    have h1 : c / s = (c - s) / s + 1 := by
      have := Nat.sub_add_cancel h
      conv_lhs => rw [← this]
      exact Nat.add_div_right _ hs
    have h2 : c % s = (c - s) % s := by
      have := Nat.sub_add_cancel h
      conv_lhs => rw [← this]
      exact Nat.add_mod_right _ _
    simp only [walkCount, h1, h2]
    omega

theorem walkCount_skip (s : Nat) (lower : List Nat) (c : Nat) (h : c < s) (hl : lower ≠ []) :
    walkCount (s :: lower) c = walkCount lower c := by
  cases lower with
  | nil => exact absurd rfl hl
  | cons s2 rest =>
    simp only [walkCount, Nat.div_eq_of_lt h, Nat.mod_eq_of_lt h, Nat.zero_add]

theorem walkCount_last (s c : Nat) (hc : 0 < c) (h : c < s) : walkCount [s] c = 1 := by
  simp only [walkCount]
  have h1 : c + s - 1 = (c - 1) + s := by omega
  rw [h1, Nat.add_div_right _ (by omega), Nat.div_eq_of_lt (by omega)]

theorem levels_zero (packs : List Pack) (cp : Pack) (h : packs[0]? = some cp) :
    levels packs 0 = [cp.Size] := by
  unfold levels
  rw [List.take_succ, h]
  simp

theorem levels_succ (packs : List Pack) (k : Nat) (cp : Pack) (h : packs[k + 1]? = some cp) :
    levels packs (k + 1) = cp.Size :: levels packs k := by
  unfold levels
  rw [List.take_succ, h]
  simp

theorem levels_head (packs : List Pack) (j : Nat) (cp : Pack) (h : packs[j]? = some cp) :
    ∃ lower, levels packs j = cp.Size :: lower := by
  cases j with
  | zero => exact ⟨[], levels_zero packs cp h⟩
  | succ k => exact ⟨_, levels_succ packs k cp h⟩

theorem levels_ne_nil (packs : List Pack) (j : Nat) (hne : packs ≠ []) : levels packs j ≠ [] := by
  cases packs with
  | nil => exact absurd rfl hne
  | cons p rest => simp [levels]

theorem levels_pos (packs : List Pack) (j : Nat) (hpos : ∀ p ∈ packs, 0 < p.Size) :
    ∀ x ∈ levels packs j, 0 < x := by
  intro x hx
  simp only [levels, List.mem_reverse, List.mem_map] at hx
  obtain ⟨p, hp, hpx⟩ := hx
  rw [← hpx]
  exact hpos p (List.mem_of_mem_take hp)

theorem fulfilBody_CostInv (packs : List Pack) (s0 : Nat) (count : Int) (W : Nat)
    (hg : GoodPacks packs s0) (hint : count < 2 ^ 63)
    (s t : FulfilState) (hs : SumInv packs s0 count s) (hcost : CostInv packs W s)
    (hc : fulfilCond s = true) (ht : fulfilBody packs s = some t) : CostInv packs W t := by
  obtain ⟨hP, hsum, hlow, hup, htot, hiter, K, hK, hKb⟩ := hs
  obtain ⟨hcpos, hit⟩ := (fulfilCond_iff s).mp hc
  obtain ⟨⟨cp, hcp, hidx⟩, hres⟩ := hP
  have hmem : cp ∈ packs := List.getElem?_mem hidx
  have hsz := hg.small cp hmem
  have hle := hg.least cp hmem
  have hpos := hg.pos
  have hti : toInt cp.Size = (cp.Size : Int) := toInt_of_lt _ hsz
  have hnw : totalPacks s.result + 1 < 2 ^ 64 := by omega
  obtain ⟨lower, hlev⟩ := levels_head packs s.currentIndex cp hidx
  have hne : packs ≠ [] := by
    intro h; rw [h] at hmem; simp at hmem
  unfold CostInv at hcost ⊢
  have htake : ∀ u : FulfilState,
      u = { currentPack := some cp
            currentIndex := s.currentIndex
            currentCount := wrapInt (s.currentCount - toInt cp.Size)
            iterCount := s.iterCount + 1
            result := incr s.result cp } →
      walkCount (levels packs s.currentIndex) s.currentCount.toNat
        = walkCount (levels packs s.currentIndex) (s.currentCount - (cp.Size : Int)).toNat + 1 →
      totalPacks u.result + walkCount (levels packs u.currentIndex) u.currentCount.toNat = W := by
    intro u hu hw
    have hwrap : wrapInt (s.currentCount - toInt cp.Size) = s.currentCount - (cp.Size : Int) := by
      rw [hti]; apply wrapInt_of_range <;> omega
    have htp := totalPacks_incr s.result cp hnw
    subst hu
    simp only [hwrap, htp]
    omega
  unfold fulfilBody at ht
  simp only [hcp] at ht
  by_cases h1 : s.currentCount ≥ toInt cp.Size
  · simp only [h1, if_true, Option.some.injEq] at ht
    apply htake t ht.symm
    rw [hti] at h1
    have h2 : (s.currentCount - (cp.Size : Int)).toNat = s.currentCount.toNat - cp.Size := by
      omega
    rw [h2, hlev]
    exact walkCount_take cp.Size _ s.currentCount.toNat (by omega) (by omega)
  · simp only [h1, if_false] at ht
    rw [hti] at h1
    by_cases h2 : s.currentIndex > 0
    · simp only [h2, if_true] at ht
      cases hget : packs[s.currentIndex - 1]? with
      | none => simp [hget] at ht
      | some q =>
        simp only [hget, Option.some.injEq] at ht
        subst ht
        simp only
        obtain ⟨k, hk⟩ : ∃ k, s.currentIndex = k + 1 := ⟨s.currentIndex - 1, by omega⟩
        rw [hk] at hidx hcost ⊢
        simp only [Nat.add_sub_cancel]
        rw [levels_succ packs k cp hidx, walkCount_skip cp.Size _ s.currentCount.toNat (by omega)
          (levels_ne_nil packs k hne)] at hcost
        exact hcost
    · simp only [h2, if_false, Option.some.injEq] at ht
      have hz : s.currentIndex = 0 := by omega
      apply htake t ht.symm
      rw [hz] at hidx
      have hlev0 := levels_zero packs cp hidx
      have h3 : (s.currentCount - (cp.Size : Int)).toNat = 0 := by omega
      rw [hz, hlev0, h3, walkCount_last cp.Size s.currentCount.toNat (by omega) (by omega)]
      have := walkCount_zero [cp.Size] (by intro x hx; simp at hx; omega)
      omega

/-- The pack the first loop selects: it is at least the count, or it is the
last one of the slice. -/
theorem findPack_first (c : Int) (len : Nat) :
    ∀ (l : List Pack) (idx : Nat) (cur : Option Pack × Nat), l ≠ [] → idx + l.length = len →
      ∃ p j, findPack c len l idx cur = (some p, j) ∧ idx ≤ j ∧ l[j - idx]? = some p ∧
        (c ≤ toInt p.Size ∨ j + 1 = len) := by
  intro l
  induction l with
  | nil => intro idx cur h; exact absurd rfl h
  | cons x rest ih =>
    intro idx cur _ hlen
    by_cases h1 : toInt x.Size ≥ c
    · exact ⟨x, idx, by simp [findPack, h1], le_refl _, by simp, Or.inl h1⟩
    · by_cases h2 : idx = len - 1
      · have hr : rest = [] := by
          apply List.eq_nil_of_length_eq_zero
          simp at hlen; omega
        subst hr
        exact ⟨x, idx, by simp [findPack, h1, h2], le_refl _, by simp,
          Or.inr (by simp at hlen; omega)⟩
      · have hr : rest ≠ [] := by
          intro h; subst h; simp at hlen; omega
        obtain ⟨p, j, hf, hj, hp, hor⟩ := ih (idx + 1) cur hr (by simp at hlen; omega)
        refine ⟨p, j, by simp [findPack, h1, h2, hf], by omega, ?_, hor⟩
        have : j - idx = (j - (idx + 1)) + 1 := by omega
        rw [this, List.getElem?_cons_succ]
        exact hp

theorem levels_full (packs : List Pack) (hne : packs ≠ []) :
    levels packs (packs.length - 1) = (packs.map (fun p => p.Size)).reverse := by
  unfold levels
  have : packs.length - 1 + 1 = packs.length := by
    have := List.length_pos.mpr hne
    omega
  rw [this, List.take_length]

/-- Starting the walk at a pack that is at least the count, or at any larger
one, takes the same number of packs. -/
theorem walkCount_start (packs : List Pack) (c j : Nat) (p : Pack)
    (hsorted : packs.Pairwise (fun a b => a.Size ≤ b.Size))
    (hpos : ∀ q ∈ packs, 0 < q.Size) (hc : 0 < c)
    (hj : packs[j]? = some p) (hle : c ≤ p.Size) :
    ∀ d, j + d < packs.length →
      walkCount (levels packs (j + d)) c = walkCount (levels packs j) c := by
  intro d
  induction d with
  | zero => intro _; rfl
  | succ d ih =>
    intro hd
    have hd2 : j + d + 1 < packs.length := by omega
    have hq : packs[j + d + 1]? = some (packs[j + d + 1]) := List.getElem?_eq_getElem hd2
    obtain ⟨hjlt, hjp⟩ := List.getElem?_eq_some.mp hj
    have hpq : p.Size ≤ (packs[j + d + 1]).Size := by
      have := List.pairwise_iff_getElem.mp hsorted j (j + d + 1) hjlt hd2 (by omega)
      rw [hjp] at this
      exact this
    have hlev : levels packs (j + (d + 1)) = (packs[j + d + 1]).Size :: levels packs (j + d) :=
      levels_succ packs (j + d) _ hq
    have hne : packs ≠ [] := by
      intro h; subst h; simp at hjlt
    have hposl := levels_pos packs (j + d) hpos
    rw [hlev]
    by_cases hlt : c < (packs[j + d + 1]).Size
    · rw [walkCount_skip _ _ c hlt (levels_ne_nil packs (j + d) hne)]
      exact ih (by omega)
    · have heq : (packs[j + d + 1]).Size = c := by omega
      have hpc : p.Size = c := by omega
      rw [heq, walkCount_take c _ c hc (le_refl _), Nat.sub_self]
      obtain ⟨lower, hlow⟩ := levels_head packs j p hj
      rw [hlow, hpc, walkCount_take c _ c hc (le_refl _), Nat.sub_self]
      have h1 : walkCount (c :: levels packs (j + d)) 0 = 0 :=
        walkCount_zero _ (by
          intro x hx
          rcases List.mem_cons.mp hx with h | h
          · omega
          · exact hposl x h)
      have h2 : walkCount (c :: lower) 0 = 0 :=
        walkCount_zero _ (by
          intro x hx
          have hx2 : x ∈ levels packs j := by rw [hlow, hpc]; exact hx
          exact levels_pos packs j hpos x hx2)
      rw [h1, h2]

theorem ceil_div_eq (c s : Nat) (hs : 0 < s) :
    (c + s - 1) / s = c / s + (if s ∣ c then 0 else 1) := by
  have h1 := Nat.div_add_mod c s
  have h2 := Nat.mod_lt c hs
  by_cases hd : s ∣ c
  · have hr : c % s = 0 := Nat.mod_eq_zero_of_dvd hd
    have h3 : c + s - 1 = (s - 1) + s * (c / s) := by omega
    rw [h3, Nat.add_mul_div_left _ _ hs, Nat.div_eq_of_lt (by omega), if_pos hd]
    omega
  · have hr : c % s ≠ 0 := fun h => hd (Nat.dvd_of_mod_eq_zero h)
    have h3 : c + s - 1 = (c % s - 1) + s * (c / s + 1) := by
      rw [Nat.mul_add]; omega
    rw [h3, Nat.add_mul_div_left _ _ hs, Nat.div_eq_of_lt (by omega), if_neg hd]
    omega

/-- The walk takes the packs that fit, largest first, and one more when the
amount is not a multiple of the smallest size. -/
theorem walkCount_eq_greedyCount (s0 : Nat) (hs0 : 0 < s0) :
    ∀ ds : List Nat, ds.getLast? = some s0 → (∀ x ∈ ds, s0 ∣ x) →
      ∀ c, walkCount ds c = greedyCount ds c + (if s0 ∣ c then 0 else 1) := by
  intro ds
  induction ds with
  | nil => intro h; simp at h
  | cons s rest ih =>
    intro hlast hmul c
    cases rest with
    | nil =>
      have hs : s = s0 := by simpa using hlast
      subst hs
      simp only [walkCount, greedyCount, ceil_div_eq c s hs0]
      omega
    | cons s2 rest2 =>
      have hlast2 : (s2 :: rest2).getLast? = some s0 := by
        simpa [List.getLast?_cons_cons] using hlast
      have h1 := ih hlast2 (fun x hx => hmul x (List.mem_cons_of_mem _ hx)) (c % s)
      have h2 : s0 ∣ c % s ↔ s0 ∣ c := Nat.dvd_mod_iff (hmul s (List.mem_cons_self _ _))
      simp only [walkCount, greedyCount, h1]
      by_cases hd : s0 ∣ c
      · simp only [if_pos hd, if_pos (h2.mpr hd)]
        omega
      · have : ¬ s0 ∣ c % s := fun h => hd (h2.mp h)
        simp only [if_neg hd, if_neg this]
        omega

/-- On a good sorted pack list, with the iteration bound out of reach, the
loop ends with a non-positive remainder above minus the smallest size, an
order of packs of the list, and as many packs as the walk from the largest
size takes for the count. -/
theorem fulfil_walk (packs : List Pack) (s0 : Nat) (count : Int)
    (hg : GoodPacks packs s0) (hsorted : packs.Pairwise (fun a b => a.Size ≤ b.Size))
    (hpos : 0 < count) (hint : count < 2 ^ 63)
    (hbound : (count + (s0 : Int) - 1) / (s0 : Int) + (packs.length : Int) ≤ 801) :
    ∃ t, fulfil packs count = some t ∧
      (delivered t.result : Int) + t.currentCount = count ∧
      -(s0 : Int) < t.currentCount ∧ t.currentCount ≤ 0 ∧
      (∀ e ∈ t.result, e.1 ∈ packs) ∧
      totalPacks t.result
        = walkCount ((packs.map (fun p => p.Size)).reverse) count.toNat := by
  have hne : packs ≠ [] := by
    obtain ⟨p0, hp0, _⟩ := hg.first
    intro h; subst h; simp at hp0
  have hppos : ∀ q ∈ packs, 0 < q.Size := fun q hq => by
    have := hg.least q hq
    have := hg.pos
    omega
  obtain ⟨p, j, hf, _, hj0, hor⟩ :=
    findPack_first count packs.length packs 0 (none, 0) hne (by simp)
  have hj : packs[j]? = some p := by simpa using hj0
  obtain ⟨hjlt, _⟩ := List.getElem?_eq_some.mp hj
  have hs0 : (0 : Int) < (s0 : Int) := by exact_mod_cast hg.pos
  have hceil := le_ceil_mul count s0 hg.pos
  have hKnn : 0 ≤ (count + (s0 : Int) - 1) / (s0 : Int) :=
    Int.ediv_nonneg (by omega) (by omega)
  have hstart : SumInv packs s0 count
      { currentPack := some p, currentIndex := j, currentCount := count,
        iterCount := 0, result := [] } := by
    refine ⟨⟨⟨p, rfl, hj⟩, by simp⟩, by simp [delivered], by simp only; omega, le_refl _,
      by simp [totalPacks, delivered], by simp [totalPacks],
      ((count + (s0 : Int) - 1) / (s0 : Int)).toNat, ?_, ?_⟩
    · rw [Int.toNat_of_nonneg hKnn]; exact hceil
    · simp only
      have := Int.toNat_of_nonneg hKnn
      omega
  have hcost0 : CostInv packs (walkCount (levels packs j) count.toNat)
      { currentPack := some p, currentIndex := j, currentCount := count,
        iterCount := 0, result := [] } := by
    simp [CostInv, totalPacks]
  obtain ⟨t, ht, hPt, hCt⟩ := fulfilLoop_invariant packs
    (fun s => SumInv packs s0 count s ∧ CostInv packs (walkCount (levels packs j) count.toNat) s)
    (fun s hs hc => by
      obtain ⟨u, hu, hSu⟩ := fulfilBody_SumInv packs s0 count hg hint s hs.1 hc
      exact ⟨u, hu, hSu, fulfilBody_CostInv packs s0 count _ hg hint s u hs.1 hs.2 hc hu⟩)
    (MAX_UNBOUNDED_ITERATION_COUNT + 2) _ ⟨hstart, hcost0⟩
  have hdone := fulfilLoop_done packs _ _ t ht (by simp [MAX_UNBOUNDED_ITERATION_COUNT])
  obtain ⟨hPack, hsum, hlow, _, _, _, K, _, hKb⟩ := hPt
  have hend : t.currentCount ≤ 0 := by
    by_contra hcon
    have : fulfilCond t = true := (fulfilCond_iff t).mpr ⟨by omega, by omega⟩
    rw [this] at hdone
    exact absurd hdone (by simp)
  refine ⟨t, ?_, hsum, hlow, hend, hPack.2, ?_⟩
  · simp only [fulfil, hf]; exact ht
  · unfold CostInv at hCt
    have hz : t.currentCount.toNat = 0 := by omega
    rw [hz, walkCount_zero _ (levels_pos packs _ hppos)] at hCt
    rw [Nat.add_zero] at hCt
    rw [hCt, ← levels_full packs hne]
    -- the walk from the selected pack is the walk from the largest pack
    rcases hor with hge | hlast
    · have hp63 := hg.small p (List.getElem?_mem hj)
      rw [toInt_of_lt _ hp63] at hge
      have hd : j + (packs.length - 1 - j) = packs.length - 1 := by omega
      have := walkCount_start packs count.toNat j p hsorted hppos (by omega) hj (by omega)
        (packs.length - 1 - j) (by omega)
      rw [hd] at this
      exact this.symm
    · have : j = packs.length - 1 := by omega
      rw [this]

theorem roundUp_eq (s0 c T : Nat) (hd : s0 ∣ T) (h1 : c ≤ T) (h2 : T < c + s0) :
    roundUp s0 c = T := by
  obtain ⟨k, hk⟩ := hd
  unfold roundUp
  have : (c + s0 - 1) / s0 = k := by
    apply Nat.div_eq_of_lt_le
    · rw [Nat.mul_comm]; omega
    · rw [Nat.add_mul, Nat.mul_comm k s0]; omega
  rw [this, hk, Nat.mul_comm]

/-! ## The claims on `ProcessOrder` -/

/-- C1, as stated, fails: with the packs 250, 500, 1000, 2000 and 5000 of the
repository's test and the count 12001, every hypothesis of the claim holds
and `ProcessOrder` returns four packs (two of 5000, one of 2000, one of 250,
as the test expects), while three packs of 5000 fulfil the order. -/
theorem ProcessOrder_not_least_packs :
    ¬ ∀ (i : Inventory) (itemID : String) (ps : PackSet) (p0 : Pack) (rest : List Pack)
        (count : Int),
        i.getPacksForItemByID itemID = some ps →
        ps.getPacks = p0 :: rest →
        ps.getPacks.Pairwise (fun a b => a.Size ≤ b.Size) →
        (∀ p ∈ ps.getPacks, 0 < p.Size ∧ p.Size < 2 ^ 63) →
        0 < count → count < 2 ^ 63 →
        (count + (p0.Size : Int) - 1) / (p0.Size : Int) + (ps.getPacks.length : Int) ≤ 801 →
        ∀ order, i.ProcessOrder itemID count = some order →
          ∀ m : List Pack, (∀ p ∈ m, p ∈ ps.getPacks) →
            count ≤ (((m.map (·.Size)).sum : Nat) : Int) →
            totalPacks order ≤ m.length := by
  intro h
  have h1 := h (invOf [250, 500, 1000, 2000, 5000]) "item1"
    { keys := [250, 500, 1000, 2000, 5000].map (fun s => (packOf s, true)),
      values := [250, 500, 1000, 2000, 5000].map packOf }
    (packOf 250) ([500, 1000, 2000, 5000].map packOf) 12001
    (by decide) (by decide) (by decide) (by decide) (by decide) (by decide) (by decide)
    [(packOf 5000, 2), (packOf 2000, 1), (packOf 250, 1)] (by decide)
    [packOf 5000, packOf 5000, packOf 5000] (by decide) (by decide)
  exact absurd h1 (by decide)

/-- C1, amended: for an item whose pack list is non-empty, sorted ascending by
size, with every size positive (a Go int) and a multiple of the smallest size,
whose sizes pass the greedy check, and a count > 0, out of reach of the
iteration bound, that is a multiple of the smallest size or whose rounding up
to the next such multiple adds exactly one pack to its largest-first make-up:
`ProcessOrder` returns an order that fulfils the count, and no multiset of the
item's packs that delivers at least the count and no more than the order
holds fewer packs than the order. -/
theorem ProcessOrder_least_without_overdelivery (i : Inventory) (itemID : String)
    (ps : PackSet) (p0 : Pack) (rest : List Pack) (count : Int)
    (hitem : i.getPacksForItemByID itemID = some ps)
    (hpacks : ps.getPacks = p0 :: rest)
    (hsorted : ps.getPacks.Pairwise (fun a b => a.Size ≤ b.Size))
    (hsize : ∀ p ∈ ps.getPacks, 0 < p.Size ∧ p.Size < 2 ^ 63)
    (hpos : 0 < count) (hint : count < 2 ^ 63)
    (hbound : (count + (p0.Size : Int) - 1) / (p0.Size : Int) + (ps.getPacks.length : Int) ≤ 801)
    (hmult : ∀ p ∈ ps.getPacks, p0.Size ∣ p.Size)
    (hcheck : GreedyCheck ((ps.getPacks.map (fun p => p.Size)).reverse) p0.Size)
    (hround : greedyCount ((ps.getPacks.map (fun p => p.Size)).reverse)
        (roundUp p0.Size count.toNat)
      = greedyCount ((ps.getPacks.map (fun p => p.Size)).reverse) count.toNat
        + (if p0.Size ∣ count.toNat then 0 else 1)) :
    ∃ order, i.ProcessOrder itemID count = some order ∧
      count ≤ (delivered order : Int) ∧
      ∀ m : List Pack, (∀ p ∈ m, p ∈ ps.getPacks) →
        count ≤ (((m.map (fun p => p.Size)).sum : Nat) : Int) →
        (m.map (fun p => p.Size)).sum ≤ delivered order →
        totalPacks order ≤ m.length := by
  have hsorted2 := hsorted
  have hsize2 := hsize
  rw [hpacks] at hsorted2 hsize2
  have hg := goodPacks_of_sorted p0 rest hsorted2 hsize2
  rw [← hpacks] at hg
  obtain ⟨t, ht, hsum, hlow, hend, hkeys, hwalk⟩ :=
    fulfil_walk ps.getPacks p0.Size count hg hsorted hpos hint hbound
  have hproc : i.ProcessOrder itemID count = some t.result := by
    simp [Inventory.ProcessOrder, hitem, ht]
  refine ⟨t.result, hproc, by omega, ?_⟩
  intro m hm hcount hupper
  have hs0 : 0 < p0.Size := hg.pos
  -- the sizes, largest first
  have hdesc : ((ps.getPacks.map (fun p => p.Size)).reverse).Pairwise (fun a b => b ≤ a) := by
    rw [List.pairwise_reverse, List.pairwise_map]
    exact hsorted
  have hmem : ∀ x, x ∈ (ps.getPacks.map (fun p => p.Size)).reverse ↔
      ∃ q ∈ ps.getPacks, q.Size = x := by
    intro x
    simp [List.mem_reverse, List.mem_map]
  have hdpos : ∀ x ∈ (ps.getPacks.map (fun p => p.Size)).reverse, 0 < x := by
    intro x hx
    obtain ⟨q, hq, hqx⟩ := (hmem x).mp hx
    rw [← hqx]; exact (hsize q hq).1
  have hdmul : ∀ x ∈ (ps.getPacks.map (fun p => p.Size)).reverse, p0.Size ∣ x := by
    intro x hx
    obtain ⟨q, hq, hqx⟩ := (hmem x).mp hx
    rw [← hqx]; exact hmult q hq
  have hlast : ((ps.getPacks.map (fun p => p.Size)).reverse).getLast? = some p0.Size := by
    rw [hpacks]; simp
  -- the order holds as many packs as largest-first needs for the units it delivers
  have hd1 : p0.Size ∣ delivered t.result :=
    delivered_dvd p0.Size t.result (fun e he => hmult e.1 (hkeys e he))
  have hT : roundUp p0.Size count.toNat = delivered t.result :=
    roundUp_eq p0.Size count.toNat (delivered t.result) hd1 (by omega) (by omega)
  have hgreedy : greedyCount ((ps.getPacks.map (fun p => p.Size)).reverse)
      (delivered t.result) = totalPacks t.result := by
    rw [hwalk, walkCount_eq_greedyCount p0.Size hs0 _ hlast hdmul, ← hround, hT]
  have hleast := greedyCount_least _ p0.Size hs0 hdesc hdmul hdpos hcheck
    (m.map (fun p => p.Size)) (by
      intro x hx
      obtain ⟨q, hq, hqx⟩ := List.mem_map.mp hx
      exact (hmem x).mpr ⟨q, hm q hq, hqx⟩)
  -- a multiset between the count and the units of the order delivers those units
  have hd2 : p0.Size ∣ (m.map (fun p => p.Size)).sum := by
    apply List.dvd_sum
    intro x hx
    obtain ⟨q, hq, hqx⟩ := List.mem_map.mp hx
    rw [← hqx]; exact hmult q (hm q hq)
  have hd3 : p0.Size ∣ delivered t.result - (m.map (fun p => p.Size)).sum :=
    Nat.dvd_sub' hd1 hd2
  have hlt : delivered t.result - (m.map (fun p => p.Size)).sum < p0.Size := by
    omega
  have hz := Nat.eq_zero_of_dvd_of_lt hd3 hlt
  have heq : (m.map (fun p => p.Size)).sum = delivered t.result := by omega
  rw [heq, hgreedy, List.length_map] at hleast
  exact hleast

/-- Witness of `ProcessOrder_least_without_overdelivery`: the packs of the
test and the count 12001. The order is two packs of 5000, one of 2000 and one
of 250, which deliver 12250, and every multiset of the packs that delivers at
least 12001 and at most 12250 holds at least four packs. -/
theorem ProcessOrder_least_without_overdelivery_witness :
    (invOf [250, 500, 1000, 2000, 5000]).ProcessOrder "item1" 12001
        = some [(packOf 5000, 2), (packOf 2000, 1), (packOf 250, 1)] ∧
      ∀ m : List Pack, (∀ p ∈ m, p ∈ [250, 500, 1000, 2000, 5000].map packOf) →
        (12001 : Int) ≤ (((m.map (fun p => p.Size)).sum : Nat) : Int) →
        (m.map (fun p => p.Size)).sum ≤ 12250 →
        4 ≤ m.length := by
  have hval : (invOf [250, 500, 1000, 2000, 5000]).ProcessOrder "item1" 12001
      = some [(packOf 5000, 2), (packOf 2000, 1), (packOf 250, 1)] := by decide
  refine ⟨hval, ?_⟩
  obtain ⟨order, ho, _, hmin⟩ :=
    ProcessOrder_least_without_overdelivery (invOf [250, 500, 1000, 2000, 5000]) "item1"
      { keys := [250, 500, 1000, 2000, 5000].map (fun s => (packOf s, true)),
        values := [250, 500, 1000, 2000, 5000].map packOf }
      (packOf 250) ([500, 1000, 2000, 5000].map packOf) 12001
      (by decide) (by decide) (by decide) (by decide) (by decide) (by decide) (by decide)
      (by decide) (by decide) (by decide)
  rw [hval] at ho
  have := Option.some.inj ho
  subst this
  intro m hm h1 h2
  exact hmin m hm h1 h2

/-- A count outside the ones above: at 251 on the packs of the test the order
is two packs of 250; rounding 251 up to 500 adds no pack to its largest-first
make-up, which is one pack for 251 and one pack for 500. -/
theorem ProcessOrder_251 :
    (invOf [250, 500, 1000, 2000, 5000]).ProcessOrder "item1" 251 = some [(packOf 250, 2)] ∧
      roundUp 250 251 = 500 ∧
      greedyCount [5000, 2000, 1000, 500, 250] 251 = 1 ∧
      greedyCount [5000, 2000, 1000, 500, 250] 500 = 1 := by
  decide

/-- A pack list that fails the greedy check: on the sizes 1, 3, 7 and 10 the
count 14, a multiple of the smallest size, gets the three packs 10, 3 and 1,
while two packs of 7 deliver 14. -/
theorem ProcessOrder_fails_greedy_check :
    (invOf [1, 3, 7, 10]).ProcessOrder "item1" 14
        = some [(packOf 10, 1), (packOf 3, 1), (packOf 1, 1)] ∧
      totalPacks [(packOf 10, 1), (packOf 3, 1), (packOf 1, 1)] = 3 ∧
      ([packOf 7, packOf 7].map (fun p => p.Size)).sum = 14 ∧
      ¬ GreedyCheck [10, 7, 3, 1] 1 := by
  decide

/-- A bound for every pack list that is non-empty, sorted ascending by size,
with every size positive (and a Go int), and every count > 0 for which the
iteration bound is not reached: the order holds no more packs than any
multiset of smallest-size packs that fulfils the count. -/
theorem ProcessOrder_least_among_smallest (i : Inventory) (itemID : String) (ps : PackSet)
    (p0 : Pack) (rest : List Pack) (count : Int)
    (hitem : i.getPacksForItemByID itemID = some ps)
    (hpacks : ps.getPacks = p0 :: rest)
    (hsorted : ps.getPacks.Pairwise (fun a b => a.Size ≤ b.Size))
    (hsize : ∀ p ∈ ps.getPacks, 0 < p.Size ∧ p.Size < 2 ^ 63)
    (hpos : 0 < count) (hint : count < 2 ^ 63)
    (hbound : (count + (p0.Size : Int) - 1) / (p0.Size : Int) + (ps.getPacks.length : Int) ≤ 801) :
    ∃ order, i.ProcessOrder itemID count = some order ∧
      count ≤ (delivered order : Int) ∧
      ∀ m : List Pack, (∀ p ∈ m, p ∈ ps.getPacks ∧ p.Size = p0.Size) →
        count ≤ (((m.map (·.Size)).sum : Nat) : Int) →
        totalPacks order ≤ m.length := by
  rw [hpacks] at hsorted hsize
  have hg := goodPacks_of_sorted p0 rest hsorted hsize
  rw [← hpacks] at hg
  obtain ⟨t, ht, hsum, hlow, hend, htot⟩ := fulfil_good ps.getPacks p0.Size count hg hpos hint hbound
  refine ⟨t.result, by simp [Inventory.ProcessOrder, hitem, ht], by omega, ?_⟩
  intro m hm hcount
  have hmsum : (m.map (·.Size)).sum = m.length * p0.Size := by
    clear hcount
    induction m with
    | nil => simp
    | cons x xs ih =>
      have hx := (hm x (List.mem_cons_self _ _)).2
      have := ih (fun p hp => hm p (List.mem_cons_of_mem _ hp))
      simp only [List.map_cons, List.sum_cons, List.length_cons, this, hx]
      rw [Nat.add_mul]; omega
  rw [hmsum] at hcount
  have h1 : totalPacks t.result * p0.Size < (m.length + 1) * p0.Size := by
    rw [Nat.add_mul]
    have : ((totalPacks t.result * p0.Size : Nat) : Int)
        < ((m.length * p0.Size + 1 * p0.Size : Nat) : Int) := by
      have h2 : ((totalPacks t.result * p0.Size : Nat) : Int) ≤ (delivered t.result : Int) := by
        exact_mod_cast htot
      push_cast at hcount ⊢
      omega
    exact_mod_cast this
  have := Nat.lt_of_mul_lt_mul_right h1
  omega

/-- The bound `ProcessOrder_least_among_smallest` at the packs of the test and
the count 12001. -/
theorem ProcessOrder_least_among_smallest_witness :
    ∃ order, (invOf [250, 500, 1000, 2000, 5000]).ProcessOrder "item1" 12001 = some order ∧
      (12001 : Int) ≤ (delivered order : Int) ∧
      ∀ m : List Pack,
        (∀ p ∈ m, p ∈ ([250, 500, 1000, 2000, 5000].map packOf) ∧ p.Size = (packOf 250).Size) →
        (12001 : Int) ≤ (((m.map (·.Size)).sum : Nat) : Int) →
        totalPacks order ≤ m.length :=
  ProcessOrder_least_among_smallest (invOf [250, 500, 1000, 2000, 5000]) "item1"
    { keys := [250, 500, 1000, 2000, 5000].map (fun s => (packOf s, true)),
      values := [250, 500, 1000, 2000, 5000].map packOf }
    (packOf 250) ([500, 1000, 2000, 5000].map packOf) 12001
    (by decide) (by decide) (by decide) (by decide) (by decide) (by decide) (by decide)

/-- C2 against the code: with packs 50, 100, 200 and 300 and the count 380,
`ProcessOrder` returns one pack of 300 and two packs of 50, and no pack of
100, where its doc comment announces 300 and 100. -/
theorem ProcessOrder_380 :
    (invOf [50, 100, 200, 300]).ProcessOrder "item1" 380
        = some [(packOf 300, 1), (packOf 50, 2)] ∧
      mapGet [(packOf 300, 1), (packOf 50, 2)] (packOf 100) = none := by
  decide

/-- C3: for an item whose pack list is non-empty, sorted ascending by size,
with every size positive and a Go int, and a count > 0 with
ceil(count / smallest size) + number of packs ≤ 801, `ProcessOrder` returns an
order that delivers at least the count and less than the count plus the
smallest size. -/
theorem ProcessOrder_fulfils (i : Inventory) (itemID : String) (ps : PackSet)
    (p0 : Pack) (rest : List Pack) (count : Int)
    (hitem : i.getPacksForItemByID itemID = some ps)
    (hpacks : ps.getPacks = p0 :: rest)
    (hsorted : ps.getPacks.Pairwise (fun a b => a.Size ≤ b.Size))
    (hsize : ∀ p ∈ ps.getPacks, 0 < p.Size ∧ p.Size < 2 ^ 63)
    (hpos : 0 < count) (hint : count < 2 ^ 63)
    (hbound : (count + (p0.Size : Int) - 1) / (p0.Size : Int) + (ps.getPacks.length : Int) ≤ 801) :
    ∃ order, i.ProcessOrder itemID count = some order ∧
      count ≤ (delivered order : Int) ∧ (delivered order : Int) < count + (p0.Size : Int) := by
  rw [hpacks] at hsorted hsize
  have hg := goodPacks_of_sorted p0 rest hsorted hsize
  rw [← hpacks] at hg
  obtain ⟨t, ht, hsum, hlow, hend, _⟩ := fulfil_good ps.getPacks p0.Size count hg hpos hint hbound
  exact ⟨t.result, by simp [Inventory.ProcessOrder, hitem, ht], by omega, by omega⟩

/-- Witness of `ProcessOrder_fulfils`: scenario B of the specification, the
packs 250 to 5000 and the count 12001. -/
theorem ProcessOrder_fulfils_witness :
    ∃ order, (invOf [250, 500, 1000, 2000, 5000]).ProcessOrder "item1" 12001 = some order ∧
      (12001 : Int) ≤ (delivered order : Int) ∧
      (delivered order : Int) < 12001 + ((packOf 250).Size : Int) :=
  ProcessOrder_fulfils (invOf [250, 500, 1000, 2000, 5000]) "item1"
    { keys := [250, 500, 1000, 2000, 5000].map (fun s => (packOf s, true)),
      values := [250, 500, 1000, 2000, 5000].map packOf }
    (packOf 250) ([500, 1000, 2000, 5000].map packOf) 12001
    (by decide) (by decide) (by decide) (by decide) (by decide) (by decide) (by decide)

set_option maxRecDepth 100000 in
/-- C4 against the code: with the single pack size 1 and the count 801 the
loop body runs 801 times and the order holds 801 packs, one more than
`MAX_UNBOUNDED_ITERATION_COUNT`. -/
theorem fulfil_801_iterations :
    (fulfil [packOf 1] 801).map (fun s => (s.iterCount, totalPacks s.result))
        = some (801, 801) ∧
      ((invOf [1]).ProcessOrder "item1" 801).map totalPacks = some 801 ∧
      MAX_UNBOUNDED_ITERATION_COUNT = 800 := by
  decide

/-- C5 against the code: for an item that exists with an empty pack list and
the count 1, `ProcessOrder` does not return: it dereferences the nil
`currentPack`. -/
theorem ProcessOrder_empty_packs_panics :
    (invOf []).getPacksForItemByID "item1" = some { keys := [], values := [] } ∧
      (invOf []).ProcessOrder "item1" 1 = none := by
  decide

/-- C10: for an item with a non-empty pack list and any count, `ProcessOrder`
returns an order, and every pack with a non-zero count in it is an element of
the item's pack list. -/
theorem ProcessOrder_packs_from_list (i : Inventory) (itemID : String) (ps : PackSet)
    (count : Int)
    (hitem : i.getPacksForItemByID itemID = some ps)
    (hne : ps.getPacks ≠ []) :
    ∃ order, i.ProcessOrder itemID count = some order ∧
      ∀ p n, mapGet order p = some n → n ≠ 0 → p ∈ ps.getPacks := by
  obtain ⟨p, j, hf, hj⟩ := fulfil_start ps.getPacks count hne
  obtain ⟨t, ht, hPt⟩ := fulfilLoop_invariant ps.getPacks (PackInv ps.getPacks)
    (fun s hs _ => fulfilBody_PackInv ps.getPacks s hs)
    (MAX_UNBOUNDED_ITERATION_COUNT + 2)
    { currentPack := some p, currentIndex := j, currentCount := count,
      iterCount := 0, result := [] }
    ⟨⟨p, rfl, hj⟩, by simp⟩
  have hful : fulfil ps.getPacks count = some t := by
    simp only [fulfil, hf]; exact ht
  refine ⟨t.result, by simp [Inventory.ProcessOrder, hitem, hful], ?_⟩
  intro q n hq _
  exact hPt.2 (q, n) (mapGet_mem _ _ _ hq)

/-- Witness of `ProcessOrder_packs_from_list`: the packs of the test and the
count 12001. -/
theorem ProcessOrder_packs_from_list_witness :
    ∃ order, (invOf [250, 500, 1000, 2000, 5000]).ProcessOrder "item1" 12001 = some order ∧
      ∀ p n, mapGet order p = some n → n ≠ 0 → p ∈ [250, 500, 1000, 2000, 5000].map packOf :=
  ProcessOrder_packs_from_list (invOf [250, 500, 1000, 2000, 5000]) "item1"
    { keys := [250, 500, 1000, 2000, 5000].map (fun s => (packOf s, true)),
      values := [250, 500, 1000, 2000, 5000].map packOf } 12001
    (by decide) (by decide)

/-! ## The claims on pack sets -/

/-- C7: every pack set reachable from `NewPackSet()` by `Add`, `Remove` and
`Sort` calls, successful or failing, has no pack twice in its sequence, and
its key index holds exactly the packs of the sequence (each mapped to true,
no other key present). -/
theorem Reachable_unique_and_indexed (ps : PackSet) (h : Reachable ps) :
    ps.values.Nodup ∧ ∀ p, mapGet ps.keys p = if p ∈ ps.values then some true else none :=
  Reachable_KeyInv ps h

/-- Witness of `Reachable_unique_and_indexed`: two packs added, the first
added again, the set sorted and the second removed. -/
theorem Reachable_unique_and_indexed_witness :
    (((((NewPackSet.Add (packOf 280)).1.Add (packOf 250)).1.Add (packOf 280)).1.Sort).Remove
        (packOf 250)).1.values.Nodup ∧
      ∀ p, mapGet (((((NewPackSet.Add (packOf 280)).1.Add (packOf 250)).1.Add
          (packOf 280)).1.Sort).Remove (packOf 250)).1.keys p
        = if p ∈ (((((NewPackSet.Add (packOf 280)).1.Add (packOf 250)).1.Add
          (packOf 280)).1.Sort).Remove (packOf 250)).1.values then some true else none :=
  Reachable_unique_and_indexed _
    (Reachable.remove _ _ (Reachable.sort _ (Reachable.add _ _ (Reachable.add _ _
      (Reachable.add _ _ Reachable.new)))))

/-- C6 against the code: a set built by adding a pack of size 1 and a pack
of size 2 ^ 63 + 1 is left by `Sort` with the larger pack first, because the
comparator `int(a.Size - b.Size)` is negative for the larger against the
smaller. -/
theorem Sort_wraps_around :
    (((NewPackSet.Add (packOf 1)).1.Add (packOf (2 ^ 63 + 1))).1).values
        = [packOf 1, packOf (2 ^ 63 + 1)] ∧
      (((NewPackSet.Add (packOf 1)).1.Add (packOf (2 ^ 63 + 1))).1.Sort).values
        = [packOf (2 ^ 63 + 1), packOf 1] ∧
      sortCmp (packOf (2 ^ 63 + 1)) (packOf 1) = -(2 ^ 63) ∧
      ¬ List.Pairwise (fun a b => a.Size ≤ b.Size) [packOf (2 ^ 63 + 1), packOf 1] := by
  decide

/-- C8 against the code: an inventory whose one item holds the packs of sizes
1 and 2 ^ 63 + 1, duplicate-free and in ascending order, comes back from
`serialize` and `unserialize` with the larger pack first. -/
theorem roundtrip_wraps_around :
    (invOf [1, 2 ^ 63 + 1]).serialize = [("item1", [packOf 1, packOf (2 ^ 63 + 1)])] ∧
      (((invOf [1, 2 ^ 63 + 1]).unserialize (invOf [1, 2 ^ 63 + 1]).serialize).getPacksForItemByID
          "item1").map PackSet.getPacks = some [packOf (2 ^ 63 + 1), packOf 1] ∧
      List.Pairwise (fun a b => a.Size ≤ b.Size) [packOf 1, packOf (2 ^ 63 + 1)] ∧
      [packOf 1, packOf (2 ^ 63 + 1)].Nodup := by
  decide

/-- C9 against the code: the record that gives one item the packs of sizes 1
and 2 ^ 63 + 1 is loaded by `unserialize` into the sequence with the larger
pack first, which is not ascending. -/
theorem unserialize_wraps_around :
    (((Inventory.mk []).unserialize [("item1", [packOf 1, packOf (2 ^ 63 + 1)])]).getPacksForItemByID
        "item1").map PackSet.getPacks = some [packOf (2 ^ 63 + 1), packOf 1] ∧
      ¬ List.Pairwise (fun a b => a.Size ≤ b.Size) [packOf (2 ^ 63 + 1), packOf 1] := by
  decide

/-! ## The claims on errors and empty orders -/

theorem slicesIndex_some_mem (l : List Pack) (p : Pack) (k : Nat)
    (h : slicesIndex l p = some k) : p ∈ l := by
  induction l generalizing k with
  | nil => simp [slicesIndex] at h
  | cons x rest ih =>
    by_cases hx : x = p
    · rw [hx]; exact List.mem_cons_self _ _
    · simp only [slicesIndex, hx, if_false, Option.map_eq_some'] at h
      obtain ⟨j, hj, _⟩ := h
      exact List.mem_cons_of_mem _ (ih j hj)

/-- C11: for every pack set reachable from `NewPackSet()` by `Add`, `Remove`
and `Sort`, and every pack p, `Add(p)` returns `ErrPackAlreadyExists` if and
only if p is already in the sequence, and then the set (sequence and key
index) is the one before the call. -/
theorem Add_error_iff_present (ps : PackSet) (p : Pack) (h : Reachable ps) :
    ((ps.Add p).2 = some Err.ErrPackAlreadyExists ↔ p ∈ ps.values) ∧
      (p ∈ ps.values → (ps.Add p).1 = ps ∧ (ps.Add p).1.values.length = ps.values.length) := by
  have hk := (Reachable_KeyInv ps h).2 p
  by_cases hin : p ∈ ps.values
  · have hex : (mapGet ps.keys p).getD false = true := by
      rw [hk, if_pos hin]; rfl
    simp [PackSet.Add, hex, hin]
  · have hex : ¬ (mapGet ps.keys p).getD false = true := by
      rw [hk, if_neg hin]; simp
    simp [PackSet.Add, hex, hin]

/-- Witness of `Add_error_iff_present`: the duplicate `Add` of the test, a
pack of size 250 added to the set that holds it. -/
theorem Add_error_iff_present_witness :
    (((NewPackSet.Add (packOf 250)).1.Add (packOf 250)).2 = some Err.ErrPackAlreadyExists ↔
        packOf 250 ∈ (NewPackSet.Add (packOf 250)).1.values) ∧
      (packOf 250 ∈ (NewPackSet.Add (packOf 250)).1.values →
        ((NewPackSet.Add (packOf 250)).1.Add (packOf 250)).1 = (NewPackSet.Add (packOf 250)).1 ∧
        ((NewPackSet.Add (packOf 250)).1.Add (packOf 250)).1.values.length
          = (NewPackSet.Add (packOf 250)).1.values.length) :=
  Add_error_iff_present (NewPackSet.Add (packOf 250)).1 (packOf 250)
    (Reachable.add _ _ Reachable.new)

/-- C12: for every pack set reachable from `NewPackSet()` by `Add`, `Remove`
and `Sort`, and every pack p, `Remove(p)` returns `ErrPackNotFound` if and
only if p is not in the sequence (equally: not in the key index), and then
the set (sequence and key index) is the one before the call. -/
theorem Remove_error_iff_absent (ps : PackSet) (p : Pack) (h : Reachable ps) :
    ((ps.Remove p).2 = some Err.ErrPackNotFound ↔ p ∉ ps.values) ∧
      (p ∉ ps.values ↔ mapGet ps.keys p = none) ∧
      (p ∉ ps.values → (ps.Remove p).1 = ps) := by
  have hk := (Reachable_KeyInv ps h).2 p
  have hkey : p ∉ ps.values ↔ mapGet ps.keys p = none := by
    by_cases hin : p ∈ ps.values
    · rw [hk, if_pos hin]; simp [hin]
    · rw [hk, if_neg hin]; simp [hin]
  cases hidx : slicesIndex ps.values p with
  | none =>
    have hnot := slicesIndex_none ps.values p hidx
    simp [PackSet.Remove, hidx, hnot, hkey.mp hnot]
  | some k =>
    have hin := slicesIndex_some_mem ps.values p k hidx
    refine ⟨?_, hkey, fun hn => absurd hin hn⟩
    simp [PackSet.Remove, hidx, hin]

/-- Witness of `Remove_error_iff_absent`: scenario D, a pack of size 280
removed from the set that holds only the pack of size 250. -/
theorem Remove_error_iff_absent_witness :
    (((NewPackSet.Add (packOf 250)).1.Remove (packOf 280)).2 = some Err.ErrPackNotFound ↔
        packOf 280 ∉ (NewPackSet.Add (packOf 250)).1.values) ∧
      (packOf 280 ∉ (NewPackSet.Add (packOf 250)).1.values ↔
        mapGet (NewPackSet.Add (packOf 250)).1.keys (packOf 280) = none) ∧
      (packOf 280 ∉ (NewPackSet.Add (packOf 250)).1.values →
        ((NewPackSet.Add (packOf 250)).1.Remove (packOf 280)).1 = (NewPackSet.Add (packOf 250)).1) :=
  Remove_error_iff_absent (NewPackSet.Add (packOf 250)).1 (packOf 280)
    (Reachable.add _ _ Reachable.new)

theorem fulfilLoop_of_not_cond (packs : List Pack) (fuel : Nat) (s : FulfilState)
    (h : fulfilCond s = false) : fulfilLoop packs fuel s = some s := by
  cases fuel with
  | zero => rfl
  | succ n => simp [fulfilLoop, h]

/-- C13: for every inventory, every item ID and every count ≤ 0,
`ProcessOrder` returns the empty order. -/
theorem ProcessOrder_nonpositive (i : Inventory) (itemID : String) (count : Int)
    (h : count ≤ 0) : i.ProcessOrder itemID count = some [] := by
  unfold Inventory.ProcessOrder
  cases i.getPacksForItemByID itemID with
  | none => rfl
  | some packs =>
    have hc : ∀ s : FulfilState, s.currentCount = count → fulfilCond s = false := by
      intro s hs
      cases hcs : fulfilCond s with
      | false => rfl
      | true =>
        have := ((fulfilCond_iff s).mp hcs).1
        omega
    unfold fulfil
    simp only
    rw [fulfilLoop_of_not_cond _ _ _ (hc _ rfl)]
    rfl

/-- Witness of `ProcessOrder_nonpositive`: scenario C, the count 0 on the
packs of the test. -/
theorem ProcessOrder_nonpositive_witness :
    (invOf [250, 500, 1000, 2000, 5000]).ProcessOrder "item1" 0 = some [] :=
  ProcessOrder_nonpositive (invOf [250, 500, 1000, 2000, 5000]) "item1" 0 (by decide)

/-! ## The claim on the lock -/

/-- The methods that take the lock make their accesses to the map under it. -/
theorem serialize_unserialize_locked (r : InvRun) (jsonData : InventoryJSONFormat)
    (h : r.log = []) :
    r.serialize.1.log = [(Access.read, true)] ∧
      (r.unserialize jsonData).log = [(Access.write, true)] := by
  simp [InvRun.serialize, InvRun.unserialize, InvRun.lock, InvRun.unLock, InvRun.access, h]

theorem addAllStrict_of_nodup (json : List Pack) :
    ∀ ps : PackSet, KeyInv ps → json.Nodup → (∀ p ∈ json, p ∉ ps.values) →
      addAllStrict ps json = Except.ok (addAll ps json) := by
  induction json with
  | nil => intro ps _ _ _; rfl
  | cons x rest ih =>
    intro ps h hnd hdis
    obtain ⟨hx, hrest⟩ := List.nodup_cons.mp hnd
    have hxps : x ∉ ps.values := hdis x (List.mem_cons_self _ _)
    have hex : ¬ (mapGet ps.keys x).getD false = true := by
      rw [h.2 x, if_neg hxps]; simp
    have hadd : ps.Add x
        = ({ keys := mapSet ps.keys x true, values := ps.values ++ [x] }, none) := by
      unfold PackSet.Add
      rw [if_neg hex]
    have hnext := ih (ps.Add x).1 (KeyInv_Add ps x h) hrest (by
      intro p hp
      rw [hadd]
      simp only [List.mem_append, List.mem_singleton, not_or]
      refine ⟨hdis p (List.mem_cons_of_mem _ hp), ?_⟩
      intro h2
      rw [h2] at hp
      exact hx hp)
    have h2 : (ps.Add x).2 = none := by rw [hadd]
    show addAllStrict ps (x :: rest) = Except.ok (addAll (ps.Add x).1 rest)
    rw [← hnext]
    simp only [addAllStrict, h2]

/-- For every inventory, item ID and duplicate-free body, the `PUT /:id`
handler, entered without the mutex, writes the map before any `lock()`: the
write is recorded with the mutex not held, and the map then holds the sorted
new pack set for the item. -/
theorem putHandler_write_unlocked (r : InvRun) (id : String) (json : List Pack)
    (hheld : r.held = false) (hlog : r.log = []) (hnd : json.Nodup) :
    (r.putHandler id json).1.log = [(Access.write, false), (Access.read, true)] ∧
      (r.putHandler id json).1.allLocked = false ∧
      (r.putHandler id json).2.1 = 200 ∧
      (r.putHandler id json).1.inv.getPacksForItemByID id
        = some (addAll NewPackSet json).Sort := by
  have hok := addAllStrict_of_nodup json NewPackSet KeyInv_new hnd (by simp [NewPackSet])
  simp [InvRun.putHandler, hok, InvRun.serialize, InvRun.lock, InvRun.unLock, InvRun.access,
    InvRun.allLocked, hheld, hlog, Inventory.getPacksForItemByID, mapGet_mapSet]

/-- C14 against the code: a `PUT /item1` with the packs 100 and 50 on the
inventory that holds 250 and 500 for the item answers 200 and replaces the
packs by 50 and 100, but its write of the map is made without the mutex
held, and the lookup `getPacksForItemByID` that follows reads the map without
the mutex too; only the reads of `serialize` are under the lock. -/
theorem putHandler_not_under_lock :
    ((InvRun.mk (invOf [250, 500]) false []).putHandler "item1" [packOf 100, packOf 50]).2.1
        = 200 ∧
      ((InvRun.mk (invOf [250, 500]) false []).putHandler "item1"
          [packOf 100, packOf 50]).1.log = [(Access.write, false), (Access.read, true)] ∧
      ((((InvRun.mk (invOf [250, 500]) false []).putHandler "item1"
          [packOf 100, packOf 50]).1.getPacksForItemByID "item1").2).map PackSet.getPacks
        = some [packOf 50, packOf 100] ∧
      (((InvRun.mk (invOf [250, 500]) false []).putHandler "item1"
          [packOf 100, packOf 50]).1.getPacksForItemByID "item1").1.log
        = [(Access.write, false), (Access.read, true), (Access.read, false)] ∧
      (((InvRun.mk (invOf [250, 500]) false []).putHandler "item1"
          [packOf 100, packOf 50]).1.getPacksForItemByID "item1").1.allLocked = false := by
  decide

end Shark
